import Mathlib

/-!
Verification development for the `bufioprop` buffered-pipe library.

The development shallowly embeds the core of the repository:

* `pipe.go` — the ring-buffered byte pipe (`pipe` struct, `inputWait`,
  `outputWait`, `inputAdvance`, `outputAdvance`, `read`, `write`,
  `readFrom`, `writeTo`, `inputClose`, `outputClose`);
* `bufio.go` — the `Copy` orchestrator (one producer task feeding a ring,
  one consumer task draining it).

Concurrency is embedded sequentially: every operation is a function on a
quiescent pipe state.  A Go `select` with no ready channel is modelled as
a distinguished `block` outcome; the two lossy wake latches (`inWake`,
`outWake`) only affect scheduling/liveness and carry no state, so they do
not appear in the state record.  Go's `close` of an already-closed channel
is modelled as a distinguished `panic` outcome.  The ring storage is
modelled as a total function from indices to bytes; all accesses are shown
to stay inside `[0, size)` by the invariants proved below.  Machine
integers (`int32` in the source) are modelled as `Nat`: all the quantities
involved are non-negative and bounded by the ring capacity, so no overflow
or sign behaviour is lost.
-/

namespace Bufioprop

/-- Bytes are modelled as natural numbers. -/
abbrev Byte := Nat

/-- Go `error` values that appear in the library: `io.EOF`, the pipe's
`ErrClosedPipe`, `io.ErrShortWrite`, and opaque user errors forwarded
verbatim from user sources and sinks.  A Go `nil` error is `Option.none`
at use sites. -/
inductive GoErr where
  | eof
  | closedPipe
  | shortWrite
  | user (code : Nat)
deriving DecidableEq, Repr

/-- Cursor wrap-around from the source: `if pos >= size then pos -= size`. -/
def wrapIdx (size pos : Nat) : Nat :=
  if pos ≥ size then pos - size else pos

/-- Semantics of Go's `copy(buf[pos:pos+len(d)], d)` on a ring storage
modelled as a total function: indices inside the written window read from
`d`, all others are unchanged. -/
def bufWrite (buf : Nat → Byte) (pos : Nat) (d : List Byte) : Nat → Byte :=
  fun j => if pos ≤ j ∧ j < pos + d.length then d.getD (j - pos) 0 else buf j

/-- The `len` bytes stored in the ring starting at index `start`,
read modulo `size`. -/
def ringSeg (buf : Nat → Byte) (size start len : Nat) : List Byte :=
  (List.range len).map fun i => buf ((start + i) % size)






/-- The shared pipe structure (`pipe` in `pipe.go`).  The wake latches
`inWake`/`outWake` are pure scheduling signals and carry no state, so they
are omitted; the quit channels are modelled by their raised/not-raised
state. -/
structure Pipe where
  buffer : Nat → Byte
  size : Nat
  free : Nat
  inPos : Nat
  outPos : Nat
  inQuit : Bool
  outQuit : Bool
  inErr : Option GoErr
  outErr : Option GoErr

/-- `Pipe(buffer int)`: fresh pipe of the given capacity, all storage
zeroed, both ends open. -/
def Pipe.init (capacity : Nat) : Pipe :=
  { buffer := fun _ => 0
    size := capacity
    free := capacity
    inPos := 0
    outPos := 0
    inQuit := false
    outQuit := false
    inErr := none
    outErr := none }

/-- Occupancy: bytes committed but not yet consumed (`capacity - free`). -/
def Pipe.occ (p : Pipe) : Nat := p.size - p.free

/-- The undelivered bytes currently held by the ring, in delivery order. -/
def Pipe.ring (p : Pipe) : List Byte := ringSeg p.buffer p.size p.outPos p.occ

/-- Outcome of a wait primitive in the quiescent (sequential) model: data
or space is available, or the `select` returns an error via a quit
channel, or the call blocks because no `select` case is ready. -/
inductive WaitRes where
  | avail (safeFree : Nat)
  | fail (e : Option GoErr)
  | block
deriving DecidableEq, Repr

/-- `pipe.inputWait`: blocks until space frees up.  The spin loop only
re-reads `free`, which cannot change in a quiescent state, so it is the
identity here.  When the ring is full, the `select` returns `ErrClosedPipe`
if either quit channel is raised and blocks otherwise. -/
def Pipe.inputWait (p : Pipe) : WaitRes :=
  if p.free ≠ 0 then .avail p.free
  else if p.outQuit then .fail (some .closedPipe)
  else if p.inQuit then .fail (some .closedPipe)
  else .block

/-- `pipe.outputClose`: records `outErr` and raises `outQuit`; the mutex
plus the `select` guard make the raise idempotent (never a double
`close`). -/
def Pipe.outputClose (p : Pipe) (err : Option GoErr) : Pipe :=
  { p with outErr := err, outQuit := true }

/-- `pipe.outputWait`: blocks until data is available.  When the ring is
empty and `inQuit` is raised, the code re-loads `free` (unchanged in a
quiescent state), closes the output end with a nil error and returns
`inErr`; when `outQuit` is raised it returns `ErrClosedPipe`; otherwise it
blocks.  Go resolves a `select` with several ready cases randomly; the
model uses the source order `inQuit` before `outQuit`. -/
def Pipe.outputWait (p : Pipe) : WaitRes × Pipe :=
  if p.free ≠ p.size then (.avail p.free, p)
  else if p.inQuit then (.fail p.inErr, p.outputClose none)
  else if p.outQuit then (.fail (some .closedPipe), p)
  else (.block, p)

/-- `pipe.inputAdvance`: move the producer cursor (with wrap), consume
free space.  The wake signal carries no state. -/
def Pipe.inputAdvance (p : Pipe) (count : Nat) : Pipe :=
  { p with inPos := wrapIdx p.size (p.inPos + count), free := p.free - count }

/-- `pipe.outputAdvance`: move the consumer cursor (with wrap), release
free space.  The wake signal carries no state. -/
def Pipe.outputAdvance (p : Pipe) (count : Nat) : Pipe :=
  { p with outPos := wrapIdx p.size (p.outPos + count), free := p.free + count }

/-- Outcome of `pipe.read`: `(n, nil)` with the bytes moved, `(n, err)`,
or a blocked call. -/
inductive ReadRes where
  | ok (n : Nat) (data : List Byte) (p : Pipe)
  | fail (n : Nat) (e : Option GoErr) (p : Pipe)
  | block

/-- `pipe.read`: short-circuits with `ErrClosedPipe` when the output end
is closed, waits for data, then moves `limit - outPos` bytes where
`limit = min (min (outPos + (size - free)) size) (outPos + len b)`.
`blen` is `len(b)`; the bytes read are returned in place of filling a
destination slice. -/
def Pipe.read (p : Pipe) (blen : Nat) : ReadRes :=
  if p.outQuit then .fail 0 (some .closedPipe) p
  else
    match p.outputWait with
    | (.avail safeFree, p1) =>
      let limit := min (min (p1.outPos + (p1.size - safeFree)) p1.size)
        (p1.outPos + blen)
      let n := limit - p1.outPos
      let data := (List.range n).map fun i => p1.buffer (p1.outPos + i)
      .ok n data (p1.outputAdvance n)
    | (.fail e, p1) => .fail 0 e p1
    | (.block, _) => .block

/-- Outcome of `pipe.write`.  `fuelOut` is an artefact of embedding the
unbounded `for` loop with fuel; it carries the state reached so far. -/
inductive WriteRes where
  | done (n : Nat) (p : Pipe)
  | fail (n : Nat) (e : Option GoErr) (p : Pipe)
  | block (n : Nat) (p : Pipe)
  | fuelOut (n : Nat) (p : Pipe)

/-- Loop body of `pipe.write`: while bytes remain, wait for space and copy
`limit - inPos` bytes where
`limit = min (min (inPos + safeFree) size) (inPos + len b)`. -/
def Pipe.writeLoop (fuel : Nat) (p : Pipe) (b : List Byte) (n : Nat) : WriteRes :=
  if b.isEmpty then .done n p
  else
    match fuel with
    | 0 => .fuelOut n p
    | fuel + 1 =>
      match p.inputWait with
      | .fail e => .fail n e p
      | .block => .block n p
      | .avail safeFree =>
        let limit := min (min (p.inPos + safeFree) p.size) (p.inPos + b.length)
        let nr := limit - p.inPos
        let p1 := { p with buffer := bufWrite p.buffer p.inPos (b.take nr) }
        Pipe.writeLoop fuel (p1.inputAdvance nr) (b.drop nr) (n + nr)

/-- `pipe.write`: short-circuits with `ErrClosedPipe` when the input end
is closed, then runs the copy loop. -/
def Pipe.write (fuel : Nat) (p : Pipe) (b : List Byte) : WriteRes :=
  if p.inQuit then .fail 0 (some .closedPipe) p
  else Pipe.writeLoop fuel p b 0

/-- Outcome of `pipe.inputClose`.  `panicked` models Go's run-time panic
on `close` of an already-closed channel; `blocked` models the
`<-p.outQuit` wait when the ring is not yet drained. -/
inductive CloseRes where
  | done (p : Pipe)
  | blocked (p : Pipe)
  | panicked

/-- `pipe.inputClose`: records `inErr` (defaulting a nil error to
`io.EOF`), closes `inQuit` — a panic if it is already closed — and, when
the ring still holds bytes, waits for `outQuit`. -/
def Pipe.inputClose (p : Pipe) (err : Option GoErr) : CloseRes :=
  let e := match err with
    | none => some GoErr.eof
    | some x => some x
  if p.inQuit then .panicked
  else
    let p1 := { p with inErr := e, inQuit := true }
    if p1.free ≠ p1.size then
      if p1.outQuit then .done p1 else .blocked p1
    else .done p1

/-- Basic well-formedness of a pipe state: positive capacity, free count
within capacity, cursors inside the buffer. -/
def PipeInv (p : Pipe) : Prop :=
  0 < p.size ∧ p.free ≤ p.size ∧ p.inPos < p.size ∧ p.outPos < p.size

/-- Ghost record of one source invocation performed by `readFrom`: the
producer cursor and free count at call time, the length of the slice
offered to the source, the byte count the source returned, and its
error. -/
structure SrcCall where
  inPos : Nat
  safeFree : Nat
  offered : Nat
  nr : Nat
  srcErr : Option GoErr
deriving DecidableEq, Repr

/-- Outcome of `pipe.readFrom`; the trace lists every source invocation
made. -/
inductive RFRes where
  | done (read : Nat) (e : Option GoErr) (p : Pipe) (trace : List SrcCall)
  | block (read : Nat) (p : Pipe) (trace : List SrcCall)
  | fuelOut (read : Nat) (p : Pipe) (trace : List SrcCall)

/-- `pipe.readFrom`: repeatedly wait for free space and hand the source
the contiguous slice `buffer[inPos:limit]` with
`limit = min (inPos + safeFree) size`.  The source is a function from the
invocation index and offered length to the delivered bytes and error; the
delivered bytes land at `inPos` and are accounted before the error check.
`io.EOF` ends the loop with a nil error; other errors are returned
verbatim. -/
def Pipe.readFrom (fuel : Nat) (p : Pipe)
    (src : Nat → Nat → List Byte × Option GoErr)
    (idx read : Nat) (trace : List SrcCall) : RFRes :=
  match fuel with
  | 0 => .fuelOut read p trace
  | fuel + 1 =>
    match p.inputWait with
    | .fail e => .done read e p trace
    | .block => .block read p trace
    | .avail safeFree =>
      let limit := min (p.inPos + safeFree) p.size
      let offered := limit - p.inPos
      let res := src idx offered
      let d := res.1
      let p1 := { p with buffer := bufWrite p.buffer p.inPos d }
      let p2 := p1.inputAdvance d.length
      let read1 := read + d.length
      let tr := trace ++ [⟨p.inPos, safeFree, offered, d.length, res.2⟩]
      match res.2 with
      | some GoErr.eof => .done read1 none p2 tr
      | some e => .done read1 (some e) p2 tr
      | none => Pipe.readFrom fuel p2 src (idx + 1) read1 tr

/-- Outcome of `pipe.writeTo`.  `adv` is a ghost counter of the bytes
actually drained from the ring (`outputAdvance` totals); `written`
follows the source and also counts bytes a sink claimed on its final,
failing call. -/
inductive WTRes where
  | done (written : Nat) (e : Option GoErr) (p : Pipe) (adv : Nat)
  | block (written : Nat) (p : Pipe) (adv : Nat)
  | fuelOut (written : Nat) (p : Pipe) (adv : Nat)

/-- `pipe.writeTo`: repeatedly wait for data and offer the sink the
contiguous slice `buffer[outPos:limit]` with
`limit = min (outPos + (size - safeFree)) size`.  An `io.EOF` from the
wait (producer closed, ring drained) is reported as a nil error.  A sink
error is returned as-is; a short write aborts with `io.ErrShortWrite`;
only a full write advances the consumer cursor. -/
def Pipe.writeTo (fuel : Nat) (p : Pipe)
    (snk : Nat → Nat → Nat × Option GoErr)
    (idx written adv : Nat) : WTRes :=
  match fuel with
  | 0 => .fuelOut written p adv
  | fuel + 1 =>
    match p.outputWait with
    | (.fail e, p1) =>
      if e = some GoErr.eof then .done written none p1 adv
      else .done written e p1 adv
    | (.block, p1) => .block written p1 adv
    | (.avail safeFree, p1) =>
      let limit := min (p1.outPos + (p1.size - safeFree)) p1.size
      let offered := limit - p1.outPos
      let res := snk idx offered
      let nw := res.1
      let written1 := written + nw
      match res.2 with
      | some e => .done written1 (some e) p1 adv
      | none =>
        if nw ≠ offered then .done written1 (some GoErr.shortWrite) p1 adv
        else Pipe.writeTo fuel (p1.outputAdvance nw) snk (idx + 1) written1 (adv + nw)

/-- Repeated `read` calls with a destination of length `blen`, collecting
the delivered bytes until a call reports an error; `none` when a call
blocks or fuel runs out. -/
def drainReads (fuel : Nat) (p : Pipe) (blen : Nat) :
    Option (List Byte × Option GoErr × Pipe) :=
  match fuel with
  | 0 => none
  | fuel + 1 =>
    match p.read blen with
    | .ok _ d p1 =>
      match drainReads fuel p1 blen with
      | some (rest, e, pf) => some (d ++ rest, e, pf)
      | none => none
    | .fail _ e p1 => some ([], e, p1)
    | .block => none

/-- One operation of the single-producer / single-consumer discipline:
exactly one call at a time, applied to a quiescent pipe. -/
inductive POp where
  | opRead (blen : Nat)
  | opWrite (fuel : Nat) (b : List Byte)
  | opReadFrom (fuel : Nat) (src : Nat → Nat → List Byte × Option GoErr)
  | opWriteTo (fuel : Nat) (snk : Nat → Nat → Nat × Option GoErr)
  | opCloseReader (e : Option GoErr)
  | opCloseWriter (e : Option GoErr)

/-- Apply one operation; the two ghost counters are the bytes the
operation committed into the ring (`inputAdvance` totals) and the bytes
it consumed out of it (`outputAdvance` totals). -/
def applyOp (p : Pipe) (op : POp) : Pipe × Nat × Nat :=
  match op with
  | .opRead blen =>
    match p.read blen with
    | .ok n _ p1 => (p1, 0, n)
    | .fail _ _ p1 => (p1, 0, 0)
    | .block => (p, 0, 0)
  | .opWrite fuel b =>
    match Pipe.write fuel p b with
    | .done n p1 => (p1, n, 0)
    | .fail n _ p1 => (p1, n, 0)
    | .block n p1 => (p1, n, 0)
    | .fuelOut n p1 => (p1, n, 0)
  | .opReadFrom fuel src =>
    match Pipe.readFrom fuel p src 0 0 [] with
    | .done n _ p1 _ => (p1, n, 0)
    | .block n p1 _ => (p1, n, 0)
    | .fuelOut n p1 _ => (p1, n, 0)
  | .opWriteTo fuel snk =>
    match Pipe.writeTo fuel p snk 0 0 0 with
    | .done _ _ p1 adv => (p1, 0, adv)
    | .block _ p1 adv => (p1, 0, adv)
    | .fuelOut _ p1 adv => (p1, 0, adv)
  | .opCloseReader e => (p.outputClose e, 0, 0)
  | .opCloseWriter e =>
    match p.inputClose e with
    | .done p1 => (p1, 0, 0)
    | .blocked p1 => (p1, 0, 0)
    | .panicked => (p, 0, 0)

/-- Run a sequence of operations, summing the committed and consumed
ghost counters. -/
def runOps (p : Pipe) (ops : List POp) : Pipe × Nat × Nat :=
  match ops with
  | [] => (p, 0, 0)
  | op :: rest =>
    let r := applyOp p op
    let rr := runOps r.1 rest
    (rr.1, r.2.1 + rr.2.1, r.2.2 + rr.2.2)

/-- A `readFrom` source respects the `io.Reader` contract: it never
returns more bytes than the length of the slice it was handed. -/
def POpWB (op : POp) : Prop :=
  match op with
  | .opReadFrom _ src => ∀ i k, (src i k).1.length ≤ k
  | _ => True

/-- State of the `Copy` orchestrator of `bufio.go`: the inlined ring
fields, the bytes the faultless source has yet to deliver, the bytes the
faultless sink has accepted (in order), the consumer's `written`
accumulator, and whether the reader goroutine has finished (its deferred
`close(inQuit)` has run). -/
structure CopyState where
  buf : Nat → Byte
  size : Nat
  free : Nat
  inPos : Nat
  outPos : Nat
  src : List Byte
  dst : List Byte
  written : Nat
  inQuit : Bool

/-- One iteration of `Copy`'s reader goroutine against a faultless
source (precondition: `free ≠ 0` and the goroutine is live).  The source
is offered `buf[inPos:inPos+safeFree]` when the slice fits before the
buffer end and `buf[inPos:]` otherwise; a faultless source delivers some
`1 ≤ nr ≤ min offered remaining` bytes — the exact chunk chosen by the
`chunk` oracle — and reports `io.EOF` exactly when it hands over its last
byte (immediately when it is already exhausted).  The goroutine breaks on
`io.EOF`, running its deferred `close(inQuit)`. -/
def prodStep (s : CopyState) (chunk : Nat) : CopyState :=
  let offered := if s.inPos + s.free ≤ s.size then s.free else s.size - s.inPos
  let most := min offered s.src.length
  let nr := if most = 0 then 0 else 1 + chunk % most
  let d := s.src.take nr
  { s with
    buf := bufWrite s.buf s.inPos d
    inPos := wrapIdx s.size (s.inPos + nr)
    free := s.free - nr
    src := s.src.drop nr
    inQuit := decide (nr = s.src.length) }

/-- One iteration of `Copy`'s writer goroutine against a faultless sink
(precondition: `free ≠ size`).  The sink is offered
`buf[outPos:outPos+expect]` with `expect = size - safeFree` when the
consumer cursor is at or behind `safeFree` and `expect = size - outPos`
otherwise; a faultless sink accepts all of it. -/
def consStep (s : CopyState) : CopyState :=
  let expect := if s.outPos ≤ s.free then s.size - s.free else s.size - s.outPos
  let d := (List.range expect).map fun i => s.buf (s.outPos + i)
  { s with
    dst := s.dst ++ d
    written := s.written + expect
    outPos := wrapIdx s.size (s.outPos + expect)
    free := s.free + expect }

/-- Interleaved execution of the two goroutines of `Copy`.  `sched`
resolves the race when both goroutines are runnable (`true` = producer).
The run ends when the consumer observes the producer gone and the ring
empty — at which point `Copy` itself returns.  A producer whose ring is
full and a consumer whose ring is empty are suspended, exactly as in the
waiting protocol of the source. -/
def copyRun (fuel : Nat) (sched : Nat → Bool) (oracle : Nat → Nat)
    (k : Nat) (s : CopyState) : Option CopyState :=
  if s.inQuit = true ∧ s.free = s.size then some s
  else
    match fuel with
    | 0 => none
    | fuel + 1 =>
      if (s.inQuit = false ∧ s.free ≠ 0) ∧ (sched k = true ∨ s.free = s.size)
      then copyRun fuel sched oracle (k + 1) (prodStep s (oracle k))
      else copyRun fuel sched oracle (k + 1) (consStep s)

/-- `Copy(dst, src, buffer)` of `bufio.go` for a faultless source with
contents `srcBytes` and a faultless sink, under the interleaving chosen
by `sched`/`oracle`: the returned byte count, the bytes the sink
received, and the returned error (the `failure` collector, never
assigned on a faultless run). -/
def CopyModel (sched : Nat → Bool) (oracle : Nat → Nat)
    (srcBytes : List Byte) (buffer : Nat) :
    Option (Nat × List Byte × Option GoErr) :=
  let s0 : CopyState :=
    { buf := fun _ => 0
      size := buffer
      free := buffer
      inPos := 0
      outPos := 0
      src := srcBytes
      dst := []
      written := 0
      inQuit := false }
  match copyRun (2 * srcBytes.length + 1) sched oracle 0 s0 with
  | some s => some (s.written, s.dst, none)
  | none => none

/-- Termination measure for `copyRun`: two tokens per undelivered source
byte, one per buffered byte, one for the pending end-of-stream. -/
def copyMeasure (s : CopyState) : Nat :=
  2 * s.src.length + (s.size - s.free) + (if s.inQuit then 0 else 1)

/-- Inductive invariant of the `Copy` simulation: well-formed ring
fields, the producer cursor sits at the end of the buffered segment, and
sink-delivered bytes, buffered bytes and undelivered source bytes
concatenate to the original source contents. -/
def CInv (orig : List Byte) (s : CopyState) : Prop :=
  0 < s.size ∧ s.free ≤ s.size ∧ s.inPos < s.size ∧ s.outPos < s.size ∧
  s.inPos = (s.outPos + (s.size - s.free)) % s.size ∧
  s.dst ++ ringSeg s.buf s.size s.outPos (s.size - s.free) ++ s.src = orig ∧
  s.written = s.dst.length ∧
  (s.inQuit = true → s.src = [])

/-- The fields of `Copy`'s writer goroutine relevant to one iteration:
the shared ring counters, the `written` accumulator and the `failure`
named-return collector of `Copy`. -/
structure CopyWriterState where
  size : Nat
  free : Nat
  outPos : Nat
  written : Nat
  failure : Option GoErr
deriving DecidableEq, Repr

/-- Outcome of one iteration of `Copy`'s writer goroutine: continue the
loop, return from the goroutine (running `defer close(outQuit)`), or
block. -/
inductive CopyWriterRes where
  | cont (s : CopyWriterState)
  | exit (s : CopyWriterState)
  | block
deriving DecidableEq, Repr

/-- One iteration of `Copy`'s writer goroutine (`bufio.go`) with an
arbitrary sink: `snkRes` maps the offered slice length to the sink's
`(nw, err)`.  On a sink error the goroutine stores it in `failure` and
returns.  On a short write it assigns `io.ErrShortWrite` to the
goroutine-local `err` variable and returns: the `failure` collector is
left untouched. -/
def copyWriterIter (s : CopyWriterState) (inQuit : Bool)
    (snkRes : Nat → Nat × Option GoErr) : CopyWriterRes :=
  if s.free = s.size then
    if inQuit then .exit s else .block
  else
    let expect := if s.outPos ≤ s.free then s.size - s.free else s.size - s.outPos
    let res := snkRes expect
    let nw := res.1
    let s1 := { s with written := s.written + nw }
    match res.2 with
    | some e => .exit { s1 with failure := some e }
    | none =>
      if nw ≠ expect then .exit s1
      else .cont { s1 with
        outPos := wrapIdx s.size (s.outPos + nw)
        free := s.free + nw }

/-- Accumulated count, state and trace of a `readFrom` outcome,
independent of how the call ended. -/
def RFOut (res : RFRes) : Nat × Pipe × List SrcCall :=
  match res with
  | .done r _ p tr => (r, p, tr)
  | .block r p tr => (r, p, tr)
  | .fuelOut r p tr => (r, p, tr)

/-- Accumulated count and state of a `write` outcome. -/
def WOut (res : WriteRes) : Nat × Pipe :=
  match res with
  | .done n p => (n, p)
  | .fail n _ p => (n, p)
  | .block n p => (n, p)
  | .fuelOut n p => (n, p)

/-- Accumulated written count, state and drained-byte count of a
`writeTo` outcome. -/
def WTOut (res : WTRes) : Nat × Pipe × Nat :=
  match res with
  | .done w _ p adv => (w, p, adv)
  | .block w p adv => (w, p, adv)
  | .fuelOut w p adv => (w, p, adv)

/-- Total byte count a `readFrom` trace accounts for. -/
def sumNr (tr : List SrcCall) : Nat :=
  (tr.map fun c => c.nr).sum

/-- A recorded source invocation respects the contract of C7: the offered
slice is the contiguous free run `min(free_now, capacity - in_pos)`
starting at `in_pos`, which neither crosses the buffer end nor covers
more than the free bytes. -/
def traceGood (size : Nat) (c : SrcCall) : Prop :=
  c.offered = min c.safeFree (size - c.inPos) ∧
  c.inPos + c.offered ≤ size ∧ c.offered ≤ c.safeFree

/-! ### Helper lemmas -/

theorem ringSeg_length (buf : Nat → Byte) (size start len : Nat) :
    (ringSeg buf size start len).length = len := by
  simp [ringSeg]

theorem ringSeg_zero (buf : Nat → Byte) (size start : Nat) :
    ringSeg buf size start 0 = [] := by
  simp [ringSeg]

/-- Closed form of `% size` below `2 * size`. -/
theorem mod_two_cases {x n : Nat} (h : x < 2 * n) :
    x % n = if x < n then x else x - n := by
  by_cases hx : x < n
  · simp [hx, Nat.mod_eq_of_lt]
  · have h1 : x - n < n := by omega
    have h2 : x = n + (x - n) := by omega
    simp only [if_neg hx]
    rw [h2, Nat.add_mod_left, Nat.mod_eq_of_lt h1]
    omega

theorem wrapIdx_eq_mod {size pos : Nat} (hsz : 0 < size) (h : pos < 2 * size) :
    wrapIdx size pos = pos % size := by
  rw [mod_two_cases h, wrapIdx]
  by_cases hx : pos < size
  · simp [hx]
  · simp [hx]

theorem wrapIdx_lt {size pos : Nat} (hsz : 0 < size) (h : pos < 2 * size) :
    wrapIdx size pos < size := by
  unfold wrapIdx
  by_cases hge : pos ≥ size
  · simp only [if_pos hge]
    omega
  · simp only [if_neg hge]
    omega


theorem bufWrite_nil (buf : Nat → Byte) (pos : Nat) :
    bufWrite buf pos [] = buf := by
  funext j
  simp only [bufWrite, List.length_nil, Nat.add_zero]
  rw [if_neg]
  omega

theorem getD_eq_getElem (d : List Byte) (k : Nat) (h : k < d.length) :
    d.getD k 0 = d[k] := by
  rw [List.getD_eq_getElem?_getD, List.getElem?_eq_getElem h]
  rfl

theorem ringSeg_getElem (buf : Nat → Byte) (size start len i : Nat)
    (h : i < (ringSeg buf size start len).length) :
    (ringSeg buf size start len)[i] = buf ((start + i) % size) := by
  simp [ringSeg]

/-- Appending: writing `d` contiguously at the producer cursor
`(start + occ) % size` extends the buffered segment by `d`. -/
theorem ringSeg_bufWrite_append (buf : Nat → Byte) (size start occ : Nat)
    (d : List Byte) (hsz : 0 < size) (hst : start < size)
    (hocc : occ + d.length ≤ size)
    (hip : (start + occ) % size + d.length ≤ size) :
    ringSeg (bufWrite buf ((start + occ) % size) d) size start (occ + d.length)
      = ringSeg buf size start occ ++ d := by
  have hlorig : (ringSeg buf size start occ).length = occ :=
    ringSeg_length buf size start occ
  apply List.ext_getElem
  · rw [ringSeg_length, List.length_append, hlorig]
  · intro i h1 h2
    have hilt : i < occ + d.length := by
      rw [ringSeg_length] at h1
      exact h1
    rw [ringSeg_getElem _ _ _ _ _ h1]
    have hjc : (start + i) % size = if start + i < size then start + i
        else start + i - size := mod_two_cases (by omega)
    have hqc : (start + occ) % size = if start + occ < size then start + occ
        else start + occ - size := mod_two_cases (by omega)
    by_cases hio : i < occ
    · rw [List.getElem_append_left (by omega)]
      rw [ringSeg_getElem _ _ _ _ _ (by omega)]
      simp only [bufWrite]
      rw [if_neg]
      rw [hjc, hqc]
      split_ifs at * <;> omega
    · rw [List.getElem_append_right (by omega)]
      simp only [bufWrite]
      rw [if_pos]
      · have harg : (start + i) % size - (start + occ) % size = i - occ := by
          rw [hjc, hqc]
          split_ifs at * <;> omega
        rw [harg, getD_eq_getElem]
        · congr 1
          omega
        · omega
      · rw [hjc, hqc]
        constructor
        · split_ifs at * <;> omega
        · split_ifs at * <;> omega

/-- The contiguous window `[start, start + m)` read directly is the first
`m` buffered bytes when it does not cross the buffer end. -/
theorem ringSeg_take_contig (buf : Nat → Byte) (size start len m : Nat)
    (hm : m ≤ len) (hend : start + m ≤ size) :
    (List.range m).map (fun i => buf (start + i))
      = (ringSeg buf size start len).take m := by
  apply List.ext_getElem
  · rw [List.length_map, List.length_range, List.length_take, ringSeg_length]
    omega
  · intro i h1 h2
    have him : i < m := by
      rw [List.length_map, List.length_range] at h1
      exact h1
    rw [List.getElem_take]
    rw [ringSeg_getElem _ _ _ _ _ (by rw [ringSeg_length]; omega)]
    simp only [List.getElem_map, List.getElem_range]
    rw [Nat.mod_eq_of_lt (by omega)]

/-- Advancing the consumer cursor over `m` bytes drops them from the
buffered segment when the window does not cross the buffer end. -/
theorem ringSeg_advance_drop (buf : Nat → Byte) (size start len m : Nat)
    (hsz : 0 < size) (hm : m ≤ len) (hend : start + m ≤ size) :
    ringSeg buf size (wrapIdx size (start + m)) (len - m)
      = (ringSeg buf size start len).drop m := by
  apply List.ext_getElem
  · rw [ringSeg_length, List.length_drop, ringSeg_length]
  · intro i h1 h2
    have hi : i < len - m := by
      rw [ringSeg_length] at h1
      exact h1
    rw [ringSeg_getElem _ _ _ _ _ h1]
    rw [List.getElem_drop]
    rw [ringSeg_getElem _ _ _ _ _ (by rw [ringSeg_length]; omega)]
    rw [wrapIdx_eq_mod hsz (by omega), Nat.mod_add_mod, Nat.add_assoc]

/-! ### Behaviour of `read` on a quiescent pipe -/

theorem read_closed_spec (p : Pipe) (blen : Nat) (hq : p.outQuit = true) :
    p.read blen = .fail 0 (some GoErr.closedPipe) p := by
  unfold Pipe.read
  rw [if_pos hq]

theorem read_eof_spec (p : Pipe) (blen : Nat) (hq : p.outQuit = false)
    (hempty : p.free = p.size) (hiq : p.inQuit = true) :
    p.read blen = .fail 0 p.inErr (p.outputClose none) := by
  unfold Pipe.read Pipe.outputWait
  rw [if_neg (by simp [hq]), if_neg (by simp [hempty]), if_pos hiq]

theorem read_block_spec (p : Pipe) (blen : Nat) (hq : p.outQuit = false)
    (hempty : p.free = p.size) (hiq : p.inQuit = false) :
    p.read blen = .block := by
  unfold Pipe.read Pipe.outputWait
  rw [if_neg (by simp [hq]), if_neg (by simp [hempty]), if_neg (by simp [hiq]),
    if_neg (by simp [hq])]

theorem read_ok_spec (p : Pipe) (blen : Nat) (hinv : PipeInv p)
    (hq : p.outQuit = false) (hdata : p.free ≠ p.size) :
    ∃ n p1,
      p.read blen = .ok n (p.ring.take n) p1 ∧
      n = min (min p.occ (p.size - p.outPos)) blen ∧
      PipeInv p1 ∧ p1.size = p.size ∧ p1.buffer = p.buffer ∧
      p1.ring = p.ring.drop n ∧ p1.occ + n = p.occ ∧ p1.free = p.free + n ∧
      p1.inPos = p.inPos ∧
      p1.inQuit = p.inQuit ∧ p1.outQuit = p.outQuit ∧
      p1.inErr = p.inErr ∧ p1.outErr = p.outErr := by
  obtain ⟨hsz, hfr, hin, hout⟩ := hinv
  have hocc1 : 1 ≤ p.occ := by
    unfold Pipe.occ
    omega
  have h0 : p.read blen
      = .ok (min (min (p.outPos + (p.size - p.free)) p.size) (p.outPos + blen)
          - p.outPos)
        ((List.range (min (min (p.outPos + (p.size - p.free)) p.size)
            (p.outPos + blen) - p.outPos)).map (fun i => p.buffer (p.outPos + i)))
        (p.outputAdvance (min (min (p.outPos + (p.size - p.free)) p.size)
          (p.outPos + blen) - p.outPos)) := by
    unfold Pipe.read Pipe.outputWait
    rw [if_neg (by simp [hq]), if_pos hdata]
  have hne : min (min (p.outPos + (p.size - p.free)) p.size) (p.outPos + blen)
      - p.outPos = min (min p.occ (p.size - p.outPos)) blen := by
    unfold Pipe.occ
    omega
  rw [hne] at h0
  have hdata2 : (List.range (min (min p.occ (p.size - p.outPos)) blen)).map
        (fun i => p.buffer (p.outPos + i))
      = p.ring.take (min (min p.occ (p.size - p.outPos)) blen) := by
    apply ringSeg_take_contig
    · omega
    · omega
  rw [hdata2] at h0
  refine ⟨min (min p.occ (p.size - p.outPos)) blen,
    p.outputAdvance (min (min p.occ (p.size - p.outPos)) blen),
    h0, rfl, ?_, rfl, rfl, ?_, ?_, rfl, rfl, rfl, rfl, rfl, rfl⟩
  · refine ⟨hsz, ?_, hin, ?_⟩
    · show p.free + _ ≤ p.size
      unfold Pipe.occ
      omega
    · show wrapIdx p.size (p.outPos + _) < p.size
      apply wrapIdx_lt hsz
      unfold Pipe.occ
      omega
  · show ringSeg p.buffer p.size (wrapIdx p.size (p.outPos + _))
        (p.size - (p.free + _)) = p.ring.drop _
    have hlen : p.size - (p.free + min (min p.occ (p.size - p.outPos)) blen)
        = p.occ - min (min p.occ (p.size - p.outPos)) blen := by
      unfold Pipe.occ
      omega
    rw [hlen]
    apply ringSeg_advance_drop p.buffer p.size p.outPos p.occ _ hsz
    · unfold Pipe.occ at *
      omega
    · unfold Pipe.occ at *
      omega
  · show p.size - (p.free + _) + _ = p.occ
    unfold Pipe.occ
    omega

/-! ### Claim theorems: close semantics -/

/-- C8: on an open writer end, `close_writer` returns at once when the
ring is empty; when undelivered bytes remain it waits on the consumer's
quit event — returning only if that event is already raised, and blocking
on `<-outQuit` otherwise. -/
theorem inputClose_drain_wait (p : Pipe) (e : Option GoErr)
    (hiq : p.inQuit = false) :
    (p.free = p.size → ∃ p1, p.inputClose e = .done p1) ∧
    (p.free ≠ p.size → p.outQuit = false → ∃ p1, p.inputClose e = .blocked p1) ∧
    (p.free ≠ p.size → p.outQuit = true → ∃ p1, p.inputClose e = .done p1) := by
  obtain ⟨buf, size, free, inPos, outPos, inQuit, outQuit, inErr, outErr⟩ := p
  simp only at hiq
  subst hiq
  refine ⟨?_, ?_, ?_⟩
  · intro hfree
    simp only at hfree
    subst hfree
    simp [Pipe.inputClose]
  · intro hfree hoq
    simp only at hfree hoq
    subst hoq
    simp [Pipe.inputClose, hfree]
  · intro hfree hoq
    simp only at hfree hoq
    subst hoq
    simp [Pipe.inputClose, hfree]

/-- C8 witness: a drained `Pipe(1)` lets `close_writer` return at once;
after one byte is written into it, `close_writer` blocks on the
consumer's quit event. -/
theorem inputClose_drain_wait_witness :
    ((Pipe.init 1).inQuit = false ∧ ∃ p1, (Pipe.init 1).inputClose none = .done p1) ∧
    (∃ q p1, Pipe.write 2 (Pipe.init 1) [7] = .done 1 q ∧ q.inQuit = false ∧
      q.free ≠ q.size ∧ q.outQuit = false ∧ q.inputClose none = .blocked p1) := by
  constructor
  · exact ⟨rfl, (inputClose_drain_wait (Pipe.init 1) none rfl).1 rfl⟩
  · obtain ⟨p1, h⟩ := (inputClose_drain_wait
      { buffer := bufWrite (fun _ => 0) 0 [7], size := 1, free := 0, inPos := 0,
        outPos := 0, inQuit := false, outQuit := false, inErr := none,
        outErr := none } none rfl).2.1 (by decide) rfl
    exact ⟨_, p1, rfl, rfl, by decide, rfl, h⟩

/-- C5: the reader end's close is idempotent (the mutex-guarded `select`
skips the second raise of `outQuit`; `outErr` is re-assigned but is never
read anywhere in the package); the writer end's close is not — a second
`close_writer` reaches `close(p.inQuit)` on a closed channel, a Go
run-time panic. -/
theorem close_idempotence_bug :
    (∀ (p : Pipe) (e : Option GoErr),
      Pipe.outputClose (Pipe.outputClose p e) e = Pipe.outputClose p e) ∧
    (match (Pipe.init 1).inputClose none with
     | .done p1 => p1.inputClose none = CloseRes.panicked
     | _ => False) := by
  constructor
  · intro p e
    rfl
  · rfl

/-- C2: evaluation at the failing input.  After the reader end is closed
(`Pipe(2)` then `outputClose nil`), a one-byte `write` still succeeds with
`(1, nil)`, and a `readFrom` still pulls the source's bytes into the ring
and returns `(1, nil)` — neither returns `ErrClosedPipe`, because
`inputWait` only consults the quit channels when the ring is full. -/
theorem write_after_reader_close_succeeds :
    (∃ p1, Pipe.write 2 (Pipe.outputClose (Pipe.init 2) none) [7]
      = .done 1 p1) ∧
    (∃ p2 tr, Pipe.readFrom 2 (Pipe.outputClose (Pipe.init 2) none)
      (fun _ _ => ([9], some GoErr.eof)) 0 0 [] = .done 1 none p2 tr) := by
  exact ⟨⟨_, rfl⟩, ⟨_, _, rfl⟩⟩

/-- C10: when the producer has closed and the ring is empty, a `read`
returns the recorded error and, as a side effect, closes the consumer end
with a nil error (`outputClose nil` inside `outputWait`); a subsequent
`read` then short-circuits with `ErrClosedPipe` instead of repeating the
end-of-stream, and the raised `outQuit` is exactly the event a
`close_writer` blocked in `<-p.outQuit` is waiting on.  A `write_to` call
observing the same state returns the recorded error (mapped to nil for
`io.EOF`) with the same side effect. -/
theorem read_eof_closes_consumer (p : Pipe) (e : GoErr) (blen blen2 : Nat)
    (hiq : p.inQuit = true) (hoq : p.outQuit = false)
    (hempty : p.free = p.size) (herr : p.inErr = some e) :
    p.read blen = .fail 0 (some e) (p.outputClose none) ∧
    (p.outputClose none).outQuit = true ∧
    (p.outputClose none).outErr = none ∧
    (p.outputClose none).read blen2
      = .fail 0 (some GoErr.closedPipe) (p.outputClose none) ∧
    (∀ fuel idx w adv snk, Pipe.writeTo (fuel + 1) p snk idx w adv
      = .done w (if e = GoErr.eof then none else some e) (p.outputClose none) adv) := by
  have hw : p.outputWait = (.fail (some e), p.outputClose none) := by
    unfold Pipe.outputWait
    rw [if_neg (by simp [hempty]), if_pos hiq, herr]
  refine ⟨?_, rfl, rfl, read_closed_spec _ blen2 rfl, ?_⟩
  · rw [read_eof_spec p blen hoq hempty hiq, herr]
  · intro fuel idx w adv snk
    unfold Pipe.writeTo
    rw [hw]
    by_cases he : e = GoErr.eof
    · subst he
      simp
    · simp [he]

/-- C10 witness: `Pipe(1)` whose writer closed with `user 3`: a `read`
yields the attached error and closes the consumer end; the next `read`
yields `ErrClosedPipe`. -/
theorem read_eof_closes_consumer_witness :
    (⟨fun _ => 0, 1, 1, 0, 0, true, false, some (GoErr.user 3), none⟩
        : Pipe).read 4
      = .fail 0 (some (GoErr.user 3))
        ((⟨fun _ => 0, 1, 1, 0, 0, true, false, some (GoErr.user 3), none⟩
          : Pipe).outputClose none) ∧
    ((⟨fun _ => 0, 1, 1, 0, 0, true, false, some (GoErr.user 3), none⟩
        : Pipe).outputClose none).outQuit = true ∧
    ((⟨fun _ => 0, 1, 1, 0, 0, true, false, some (GoErr.user 3), none⟩
        : Pipe).outputClose none).read 4
      = .fail 0 (some GoErr.closedPipe)
        ((⟨fun _ => 0, 1, 1, 0, 0, true, false, some (GoErr.user 3), none⟩
          : Pipe).outputClose none) := by
  have h := read_eof_closes_consumer
    ⟨fun _ => 0, 1, 1, 0, 0, true, false, some (GoErr.user 3), none⟩
    (GoErr.user 3) 4 4 rfl rfl rfl rfl
  exact ⟨h.1, h.2.1, h.2.2.2.1⟩

/-- C4 counterexample: a pipe built by writing one byte into `Pipe(2)` is
open on both ends and holds one byte, yet `read` with an empty
destination buffer moves nothing and returns `(0, ok)`. -/
theorem read_zero_ok_counterexample :
    ∃ q q1, Pipe.write 2 (Pipe.init 2) [5] = .done 1 q ∧
      q.inQuit = false ∧ q.outQuit = false ∧ q.occ = 1 ∧
      q.read 0 = .ok 0 [] q1 := by
  exact ⟨_, _, rfl, rfl, rfl, rfl, rfl⟩

/-- C4 (amended): for every nonempty destination buffer, a successful
`read` on a pipe moves between 1 and `len(dst)` bytes out of the ring;
it never returns `(0, ok)`. -/
theorem read_moves_between_one_and_blen (p : Pipe) (blen : Nat)
    (hinv : PipeInv p) (hbl : 0 < blen) :
    ∀ n d p1, p.read blen = .ok n d p1 →
      1 ≤ n ∧ n ≤ blen ∧ d.length = n ∧ p1.occ + n = p.occ := by
  intro n d p1 h
  by_cases hq : p.outQuit = true
  · rw [read_closed_spec p blen hq] at h
    simp at h
  · have hq2 : p.outQuit = false := by simpa using hq
    by_cases hfree : p.free = p.size
    · by_cases hiq : p.inQuit = true
      · rw [read_eof_spec p blen hq2 hfree hiq] at h
        simp at h
      · rw [read_block_spec p blen hq2 hfree (by simpa using hiq)] at h
        simp at h
    · obtain ⟨n0, p10, heq, hn0, hinv1, hsz1, hbuf1, hring1, hocc1, hfree1,
        hip1, hiq1, hoq1, hierr1, hoerr1⟩ := read_ok_spec p blen hinv hq2 hfree
      rw [heq] at h
      injection h with h1 h2 h3
      subst h1
      subst h3
      obtain ⟨hsz, hfr, hin, hout⟩ := hinv
      have hocc : 1 ≤ p.occ := by
        unfold Pipe.occ
        omega
      refine ⟨by omega, by omega, ?_, by omega⟩
      rw [← h2, List.length_take, Pipe.ring, ringSeg_length]
      unfold Pipe.occ at *
      omega

/-- C4 witness: the same one-byte pipe read with a one-byte destination
moves exactly one byte. -/
theorem read_moves_between_one_and_blen_witness :
    ∃ q1, (⟨bufWrite (fun _ => 0) 0 [5], 2, 1, 1, 0, false, false, none,
        none⟩ : Pipe).read 1 = .ok 1 [5] q1 ∧
      (1 ≤ 1 ∧ 1 ≤ 1 ∧ ([5] : List Byte).length = 1 ∧
        q1.occ + 1 = (⟨bufWrite (fun _ => 0) 0 [5], 2, 1, 1, 0, false, false,
          none, none⟩ : Pipe).occ) := by
  refine ⟨_, rfl, ?_⟩
  exact read_moves_between_one_and_blen
    ⟨bufWrite (fun _ => 0) 0 [5], 2, 1, 1, 0, false, false, none, none⟩ 1
    ⟨by decide, by decide, by decide, by decide⟩ (by decide) 1 [5] _ rfl

theorem drainReads_mono : ∀ (f1 f2 : Nat) (p : Pipe) (blen : Nat)
    (r : List Byte × Option GoErr × Pipe), f1 ≤ f2 →
    drainReads f1 p blen = some r → drainReads f2 p blen = some r := by
  intro f1
  induction f1 with
  | zero =>
    intro f2 p blen r hle h
    simp [drainReads] at h
  | succ f ih =>
    intro f2 p blen r hle h
    obtain ⟨f2p, rfl⟩ : ∃ f2p, f2 = f2p + 1 := ⟨f2 - 1, by omega⟩
    unfold drainReads at h ⊢
    cases hh : p.read blen with
    | ok n d p1 =>
      rw [hh] at h
      dsimp only at h
      dsimp only
      cases hdr : drainReads f p1 blen with
      | none =>
        rw [hdr] at h
        simp at h
      | some rp =>
        rw [hdr] at h
        rw [ih f2p p1 blen rp (by omega) hdr]
        exact h
    | fail n e p1 =>
      rw [hh] at h
      dsimp only at h
      dsimp only
      exact h
    | block =>
      rw [hh] at h
      dsimp only at h
      simp at h

theorem drainReads_spec : ∀ (occv : Nat) (p : Pipe) (blen : Nat),
    p.occ = occv → PipeInv p → p.inQuit = true → p.outQuit = false →
    0 < blen →
    ∃ pf, drainReads (occv + 1) p blen = some (p.ring, p.inErr, pf) ∧
      pf.outQuit = true := by
  intro occv
  induction occv using Nat.strong_induction_on with
  | _ occv IH =>
    intro p blen hocc hinv hiq hoq hbl
    by_cases hfree : p.free = p.size
    · have hocc0 : p.occ = 0 := by
        unfold Pipe.occ
        omega
      have hring : p.ring = [] := by
        rw [Pipe.ring, hocc0, ringSeg_zero]
      have hov : occv = 0 := by omega
      subst hov
      refine ⟨p.outputClose none, ?_, rfl⟩
      unfold drainReads
      rw [read_eof_spec p blen hoq hfree hiq, hring]
    · obtain ⟨n, p1, heq, hn, hinv1, hsz1, hbuf1, hring1, hocc1, hfree1,
        hip1, hiq1, hoq1, hierr1, hoerr1⟩ := read_ok_spec p blen hinv hoq hfree
      obtain ⟨hsz, hfr, hin, hout⟩ := hinv
      have hoccpos : 1 ≤ p.occ := by
        unfold Pipe.occ
        omega
      have hn1 : 1 ≤ n := by
        rw [hn]
        omega
      have hlt : p1.occ < occv := by omega
      obtain ⟨pf, hdr, hpf⟩ := IH p1.occ hlt p1 blen rfl hinv1
        (hiq1.trans hiq) (hoq1.trans hoq) hbl
      refine ⟨pf, ?_, hpf⟩
      have hmono : drainReads occv p1 blen = some (p1.ring, p1.inErr, pf) :=
        drainReads_mono (p1.occ + 1) occv p1 blen _ (by omega) hdr
      unfold drainReads
      rw [heq]
      dsimp only
      rw [hmono]
      dsimp only
      rw [hring1, hierr1, List.take_append_drop]

/-- C3: closing the writer end records the attached error (`io.EOF` for a
nil close) in `inErr`; from the resulting state, repeated reads first
deliver every byte buffered at close time, in order, and only when the
ring is empty does a read return exactly the recorded error. -/
theorem close_writer_drain_then_error (q : Pipe) (err : Option GoErr)
    (blen : Nat) (hinv : PipeInv q) (hiq : q.inQuit = false)
    (hoq : q.outQuit = false) (hbl : 0 < blen) :
    ∃ p pf,
      (q.inputClose err = .done p ∨ q.inputClose err = .blocked p) ∧
      p.inErr = some (err.getD GoErr.eof) ∧
      p.ring = q.ring ∧
      drainReads (p.occ + 1) p blen
        = some (q.ring, some (err.getD GoErr.eof), pf) ∧
      pf.outQuit = true := by
  have hinv2 : PipeInv { q with inErr := some (err.getD GoErr.eof), inQuit := true } := hinv
  obtain ⟨pf, hdr, hpf⟩ := drainReads_spec
    ({ q with inErr := some (err.getD GoErr.eof), inQuit := true } : Pipe).occ
    { q with inErr := some (err.getD GoErr.eof), inQuit := true } blen rfl hinv2 rfl hoq hbl
  refine ⟨{ q with inErr := some (err.getD GoErr.eof), inQuit := true }, pf,
    ?_, rfl, rfl, hdr, hpf⟩
  cases err with
  | none =>
    by_cases hfree : q.free = q.size
    · left
      unfold Pipe.inputClose
      rw [if_neg (by simp [hiq]), if_neg (by simp [hfree])]
      rfl
    · right
      unfold Pipe.inputClose
      rw [if_neg (by simp [hiq]), if_pos (by simpa using hfree),
        if_neg (by simp [hoq])]
      rfl
  | some x =>
    by_cases hfree : q.free = q.size
    · left
      unfold Pipe.inputClose
      rw [if_neg (by simp [hiq]), if_neg (by simp [hfree])]
      rfl
    · right
      unfold Pipe.inputClose
      rw [if_neg (by simp [hiq]), if_pos (by simpa using hfree),
        if_neg (by simp [hoq])]
      rfl

/-- C3 witness: `Pipe(2)` holding one buffered byte, writer closed with
an attached error: reads drain the byte, then report that error. -/
theorem close_writer_drain_then_error_witness :
    0 < 2 ∧
    ∃ p pf,
      ((⟨bufWrite (fun _ => 0) 0 [5], 2, 1, 1, 0, false, false, none,
          none⟩ : Pipe).inputClose (some (GoErr.user 9)) = .done p ∨
       (⟨bufWrite (fun _ => 0) 0 [5], 2, 1, 1, 0, false, false, none,
          none⟩ : Pipe).inputClose (some (GoErr.user 9)) = .blocked p) ∧
      p.inErr = some ((some (GoErr.user 9)).getD GoErr.eof) ∧
      p.ring = (⟨bufWrite (fun _ => 0) 0 [5], 2, 1, 1, 0, false, false, none,
          none⟩ : Pipe).ring ∧
      drainReads (p.occ + 1) p 2
        = some ((⟨bufWrite (fun _ => 0) 0 [5], 2, 1, 1, 0, false, false, none,
            none⟩ : Pipe).ring, some ((some (GoErr.user 9)).getD GoErr.eof), pf) ∧
      pf.outQuit = true :=
  ⟨by decide, close_writer_drain_then_error
    ⟨bufWrite (fun _ => 0) 0 [5], 2, 1, 1, 0, false, false, none, none⟩
    (some (GoErr.user 9)) 2
    ⟨by decide, by decide, by decide, by decide⟩ rfl rfl (by decide)⟩

/-! ### Producer-side machinery: `inputWait`, advances, `readFrom` -/

theorem inputWait_avail (p : Pipe) (h : p.free ≠ 0) :
    p.inputWait = .avail p.free := by
  unfold Pipe.inputWait
  rw [if_pos h]

theorem inputAdvance_spec (p : Pipe) (c : Nat) (hinv : PipeInv p)
    (hc : c ≤ p.free) :
    PipeInv (p.inputAdvance c) ∧ (p.inputAdvance c).size = p.size ∧
    (p.inputAdvance c).free = p.free - c ∧
    (p.inputAdvance c).occ = p.occ + c ∧
    (p.inputAdvance c).outPos = p.outPos ∧
    (p.inputAdvance c).buffer = p.buffer ∧
    (p.inputAdvance c).inQuit = p.inQuit ∧
    (p.inputAdvance c).outQuit = p.outQuit ∧
    (p.inputAdvance c).inErr = p.inErr ∧
    (p.inputAdvance c).outErr = p.outErr := by
  obtain ⟨hsz, hfr, hin, hout⟩ := hinv
  refine ⟨⟨hsz, by simp [Pipe.inputAdvance]; omega, ?_, hout⟩, rfl, rfl, ?_,
    rfl, rfl, rfl, rfl, rfl, rfl⟩
  · show wrapIdx p.size (p.inPos + c) < p.size
    exact wrapIdx_lt hsz (by omega)
  · show p.size - (p.free - c) = p.occ + c
    unfold Pipe.occ
    omega

theorem outputAdvance_spec (p : Pipe) (c : Nat) (hinv : PipeInv p)
    (hc : c ≤ p.occ) :
    PipeInv (p.outputAdvance c) ∧ (p.outputAdvance c).size = p.size ∧
    (p.outputAdvance c).free = p.free + c ∧
    (p.outputAdvance c).occ + c = p.occ ∧
    (p.outputAdvance c).inPos = p.inPos ∧
    (p.outputAdvance c).buffer = p.buffer ∧
    (p.outputAdvance c).inQuit = p.inQuit ∧
    (p.outputAdvance c).outQuit = p.outQuit ∧
    (p.outputAdvance c).inErr = p.inErr ∧
    (p.outputAdvance c).outErr = p.outErr := by
  obtain ⟨hsz, hfr, hin, hout⟩ := hinv
  unfold Pipe.occ at hc
  refine ⟨⟨hsz, by simp [Pipe.outputAdvance]; omega, hin, ?_⟩, rfl, rfl, ?_,
    rfl, rfl, rfl, rfl, rfl, rfl⟩
  · show wrapIdx p.size (p.outPos + c) < p.size
    exact wrapIdx_lt hsz (by omega)
  · show p.size - (p.free + c) + c = p.occ
    unfold Pipe.occ
    omega

theorem occ_buffer_update (p : Pipe) (b : Nat → Byte) :
    Pipe.occ { p with buffer := b } = p.occ := rfl

theorem free_buffer_update (p : Pipe) (b : Nat → Byte) :
    (({ p with buffer := b } : Pipe)).free = p.free := rfl

theorem occ_outputClose (p : Pipe) (e : Option GoErr) :
    (p.outputClose e).occ = p.occ := rfl

theorem readFrom_spec (src : Nat → Nat → List Byte × Option GoErr)
    (hwb : ∀ i k, (src i k).1.length ≤ k) :
    ∀ (fuel : Nat) (p : Pipe) (idx read : Nat) (trace : List SrcCall)
      (r : Nat) (p1 : Pipe) (tr : List SrcCall),
    PipeInv p →
    RFOut (Pipe.readFrom fuel p src idx read trace) = (r, p1, tr) →
    PipeInv p1 ∧ p1.size = p.size ∧ read ≤ r ∧ r - read ≤ p.free ∧
    p1.occ = p.occ + (r - read) ∧
    ∃ new, tr = trace ++ new ∧ (∀ c ∈ new, traceGood p.size c) ∧
      r = read + sumNr new := by
  intro fuel
  induction fuel with
  | zero =>
    intro p idx read trace r p1 tr hinv heq
    unfold Pipe.readFrom at heq
    simp only [RFOut, Prod.mk.injEq] at heq
    obtain ⟨rfl, rfl, rfl⟩ := heq
    refine ⟨hinv, rfl, Nat.le_refl _, by omega, by omega, [], by simp,
      by simp, by simp [sumNr]⟩
  | succ fuel ih =>
    intro p idx read trace r p1 tr hinv heq
    have hinv0 := hinv
    obtain ⟨hsz, hfr, hin, hout⟩ := hinv0
    unfold Pipe.readFrom at heq
    by_cases hfree0 : p.free ≠ 0
    · rw [inputWait_avail p hfree0] at heq
      dsimp only at heq
      have hdlen : (src idx (min (p.inPos + p.free) p.size - p.inPos)).1.length
          ≤ min (p.inPos + p.free) p.size - p.inPos := hwb idx _
      have hadv := inputAdvance_spec
        { p with buffer := (bufWrite p.buffer p.inPos (src idx (min (p.inPos + p.free) p.size - p.inPos)).1) }
        (src idx (min (p.inPos + p.free) p.size - p.inPos)).1.length
        ⟨hsz, hfr, hin, hout⟩
        (by show (src idx (min (p.inPos + p.free) p.size - p.inPos)).1.length ≤ p.free
            omega)
      obtain ⟨hadvinv, hadvsz, hadvfree, hadvocc, _, _, _, _, _, _⟩ := hadv
      have hgoodc : traceGood p.size
          ⟨p.inPos, p.free, min (p.inPos + p.free) p.size - p.inPos,
            (src idx (min (p.inPos + p.free) p.size - p.inPos)).1.length,
            (src idx (min (p.inPos + p.free) p.size - p.inPos)).2⟩ := by
        refine ⟨?_, ?_, ?_⟩
        · show min (p.inPos + p.free) p.size - p.inPos
            = min p.free (p.size - p.inPos)
          omega
        · show p.inPos + (min (p.inPos + p.free) p.size - p.inPos) ≤ p.size
          omega
        · show min (p.inPos + p.free) p.size - p.inPos ≤ p.free
          omega
      cases hsrc : (src idx (min (p.inPos + p.free) p.size - p.inPos)).2 with
      | none =>
        rw [hsrc] at heq
        dsimp only at heq
        obtain ⟨hp1, hsz1, hler, hfr1, hocc1, new, htr, hgood, hsum⟩ :=
          ih _ _ _ _ _ _ _ hadvinv heq
        refine ⟨hp1, by rw [hsz1, hadvsz], by omega, ?_, ?_, ?_⟩
        · rw [hadvfree] at hfr1
          simp [Pipe.occ] at *
          omega
        · rw [hocc1, hadvocc]
          simp [Pipe.occ] at *
          omega
        · refine ⟨⟨p.inPos, p.free, min (p.inPos + p.free) p.size - p.inPos, (src idx (min (p.inPos + p.free) p.size - p.inPos)).1.length, none⟩ :: new, ?_, ?_, ?_⟩
          · rw [htr]
            simp
          · intro c hc
            rw [List.mem_cons] at hc
            rcases hc with hc | hc
            · rw [hc]
              exact hgoodc
            · have := hgood c hc
              rw [hadvsz] at this
              exact this
          · rw [hsum]
            simp [sumNr, hsrc]
            omega
      | some e =>
        cases e with
        | eof =>
          rw [hsrc] at heq
          dsimp only [RFOut] at heq
          simp only [Prod.mk.injEq] at heq
          obtain ⟨rfl, rfl, rfl⟩ := heq
          refine ⟨hadvinv, hadvsz, by omega, by omega,
            by rw [hadvocc, occ_buffer_update]; omega, [⟨p.inPos, p.free, min (p.inPos + p.free) p.size - p.inPos, (src idx (min (p.inPos + p.free) p.size - p.inPos)).1.length, some GoErr.eof⟩], rfl, ?_, ?_⟩
          · intro c hc
            simp only [List.mem_singleton] at hc
            rw [hc]
            rw [← hsrc]
            exact hgoodc
          · simp [sumNr]
        | closedPipe =>
          rw [hsrc] at heq
          dsimp only [RFOut] at heq
          simp only [Prod.mk.injEq] at heq
          obtain ⟨rfl, rfl, rfl⟩ := heq
          refine ⟨hadvinv, hadvsz, by omega, by omega,
            by rw [hadvocc, occ_buffer_update]; omega, [⟨p.inPos, p.free, min (p.inPos + p.free) p.size - p.inPos, (src idx (min (p.inPos + p.free) p.size - p.inPos)).1.length, some GoErr.closedPipe⟩], rfl, ?_, ?_⟩
          · intro c hc
            simp only [List.mem_singleton] at hc
            rw [hc]
            rw [← hsrc]
            exact hgoodc
          · simp [sumNr]
        | shortWrite =>
          rw [hsrc] at heq
          dsimp only [RFOut] at heq
          simp only [Prod.mk.injEq] at heq
          obtain ⟨rfl, rfl, rfl⟩ := heq
          refine ⟨hadvinv, hadvsz, by omega, by omega,
            by rw [hadvocc, occ_buffer_update]; omega, [⟨p.inPos, p.free, min (p.inPos + p.free) p.size - p.inPos, (src idx (min (p.inPos + p.free) p.size - p.inPos)).1.length, some GoErr.shortWrite⟩], rfl, ?_, ?_⟩
          · intro c hc
            simp only [List.mem_singleton] at hc
            rw [hc]
            rw [← hsrc]
            exact hgoodc
          · simp [sumNr]
        | user m =>
          rw [hsrc] at heq
          dsimp only [RFOut] at heq
          simp only [Prod.mk.injEq] at heq
          obtain ⟨rfl, rfl, rfl⟩ := heq
          refine ⟨hadvinv, hadvsz, by omega, by omega,
            by rw [hadvocc, occ_buffer_update]; omega, [⟨p.inPos, p.free, min (p.inPos + p.free) p.size - p.inPos, (src idx (min (p.inPos + p.free) p.size - p.inPos)).1.length, some (GoErr.user m)⟩], rfl, ?_, ?_⟩
          · intro c hc
            simp only [List.mem_singleton] at hc
            rw [hc]
            rw [← hsrc]
            exact hgoodc
          · simp [sumNr]
    · have hfz : p.free = 0 := by omega
      by_cases hoq : p.outQuit = true
      · have hiw : p.inputWait = .fail (some GoErr.closedPipe) := by
          unfold Pipe.inputWait
          rw [if_neg (by omega), if_pos hoq]
        rw [hiw] at heq
        dsimp only [RFOut] at heq
        simp only [Prod.mk.injEq] at heq
        obtain ⟨rfl, rfl, rfl⟩ := heq
        exact ⟨hinv, rfl, Nat.le_refl _, by omega, by omega, [], by simp,
          by simp, by simp [sumNr]⟩
      · by_cases hiq : p.inQuit = true
        · have hiw : p.inputWait = .fail (some GoErr.closedPipe) := by
            unfold Pipe.inputWait
            rw [if_neg (by omega), if_neg hoq, if_pos hiq]
          rw [hiw] at heq
          dsimp only [RFOut] at heq
          simp only [Prod.mk.injEq] at heq
          obtain ⟨rfl, rfl, rfl⟩ := heq
          exact ⟨hinv, rfl, Nat.le_refl _, by omega, by omega, [], by simp,
            by simp, by simp [sumNr]⟩
        · have hiw : p.inputWait = .block := by
            unfold Pipe.inputWait
            rw [if_neg (by omega), if_neg hoq, if_neg hiq]
          rw [hiw] at heq
          dsimp only [RFOut] at heq
          simp only [Prod.mk.injEq] at heq
          obtain ⟨rfl, rfl, rfl⟩ := heq
          exact ⟨hinv, rfl, Nat.le_refl _, by omega, by omega, [], by simp,
            by simp, by simp [sumNr]⟩

theorem readFrom_err_last (src : Nat → Nat → List Byte × Option GoErr) :
    ∀ (fuel : Nat) (p : Pipe) (idx read : Nat) (trace : List SrcCall)
      (r m : Nat) (p1 : Pipe) (tr : List SrcCall),
    Pipe.readFrom fuel p src idx read trace
      = .done r (some (GoErr.user m)) p1 tr →
    ∃ h : tr ≠ [], (tr.getLast h).srcErr = some (GoErr.user m) := by
  intro fuel
  induction fuel with
  | zero =>
    intro p idx read trace r m p1 tr heq
    unfold Pipe.readFrom at heq
    simp at heq
  | succ fuel ih =>
    intro p idx read trace r m p1 tr heq
    unfold Pipe.readFrom at heq
    by_cases hfree0 : p.free ≠ 0
    · rw [inputWait_avail p hfree0] at heq
      dsimp only at heq
      cases hsrc : (src idx (min (p.inPos + p.free) p.size - p.inPos)).2 with
      | none =>
        rw [hsrc] at heq
        dsimp only at heq
        exact ih _ _ _ _ _ _ _ _ heq
      | some e =>
        cases e with
        | eof =>
          rw [hsrc] at heq
          dsimp only at heq
          simp at heq
        | closedPipe =>
          rw [hsrc] at heq
          dsimp only at heq
          simp at heq
        | shortWrite =>
          rw [hsrc] at heq
          dsimp only at heq
          simp at heq
        | user m0 =>
          rw [hsrc] at heq
          dsimp only at heq
          simp only [RFRes.done.injEq, Option.some.injEq, GoErr.user.injEq] at heq
          obtain ⟨h1, h2, h3, h4⟩ := heq
          subst h4
          refine ⟨by simp, ?_⟩
          rw [List.getLast_append_singleton]
          simp [h2]
    · have hfz : p.free = 0 := by omega
      by_cases hoq : p.outQuit = true
      · have hiw : p.inputWait = .fail (some GoErr.closedPipe) := by
          unfold Pipe.inputWait
          rw [if_neg (by omega), if_pos hoq]
        rw [hiw] at heq
        dsimp only at heq
        simp at heq
      · by_cases hiq : p.inQuit = true
        · have hiw : p.inputWait = .fail (some GoErr.closedPipe) := by
            unfold Pipe.inputWait
            rw [if_neg (by omega), if_neg hoq, if_pos hiq]
          rw [hiw] at heq
          dsimp only at heq
          simp at heq
        · have hiw : p.inputWait = .block := by
            unfold Pipe.inputWait
            rw [if_neg (by omega), if_neg hoq, if_neg hiq]
          rw [hiw] at heq
          dsimp only at heq
          simp at heq

/-- C7: inside `readFrom`, every source invocation is handed the
contiguous free slice starting at `in_pos` of length
`min(free_now, capacity - in_pos)` — never crossing the buffer end and
never covering more than the free bytes — the returned total counts every
byte the source delivered (final partial read included), and a non-EOF
source error ends the call as the recorded error of its last
invocation. -/
theorem readFrom_offers_and_errors (src : Nat → Nat → List Byte × Option GoErr)
    (fuel : Nat) (p : Pipe) (hinv : PipeInv p)
    (hwb : ∀ i k, (src i k).1.length ≤ k) :
    (∀ r p1 tr, RFOut (Pipe.readFrom fuel p src 0 0 []) = (r, p1, tr) →
      (∀ c ∈ tr, traceGood p.size c) ∧ r = sumNr tr) ∧
    (∀ r m p1 tr, Pipe.readFrom fuel p src 0 0 []
        = .done r (some (GoErr.user m)) p1 tr →
      ∃ h : tr ≠ [], (tr.getLast h).srcErr = some (GoErr.user m)) := by
  constructor
  · intro r p1 tr heq
    obtain ⟨_, _, _, _, _, new, htr, hgood, hsum⟩ :=
      readFrom_spec src hwb fuel p 0 0 [] r p1 tr hinv heq
    rw [htr]
    simp only [List.nil_append] at *
    exact ⟨hgood, by omega⟩
  · intro r m p1 tr heq
    exact readFrom_err_last src fuel p 0 0 [] r m p1 tr heq

/-- C7 witness: `Pipe(2)` with a source that yields one byte and a user
error on its first call. -/
theorem readFrom_offers_and_errors_witness :
    ∃ r p1 tr h,
      Pipe.readFrom 3 (Pipe.init 2)
        (fun i k => (List.take k (if i = 0 then [4] else []),
          if i = 0 then some (GoErr.user 7) else none)) 0 0 []
        = .done r (some (GoErr.user 7)) p1 tr ∧
      (∀ c ∈ tr, traceGood (Pipe.init 2).size c) ∧ r = sumNr tr ∧
      (tr.getLast h).srcErr = some (GoErr.user 7) := by
  have hwb : ∀ i k, ((fun i k => (List.take k (if i = 0 then [4] else []),
      if i = 0 then some (GoErr.user 7) else none)) i k).1.length ≤ k := by
    intro i k
    by_cases hi : i = 0 <;> simp [hi]
  have hmain := readFrom_offers_and_errors
    (fun i k => (List.take k (if i = 0 then [4] else []),
      if i = 0 then some (GoErr.user 7) else none)) 3 (Pipe.init 2)
    ⟨by decide, by decide, by decide, by decide⟩ hwb
  obtain ⟨hne, hlast⟩ := hmain.2 1 7 _ _ rfl
  obtain ⟨hgood, hsum⟩ := hmain.1 1 _ _ rfl
  exact ⟨1, _, _, hne, rfl, hgood, hsum, hlast⟩

/-! ### Consumer-side machinery and the short-write claim -/

theorem outputWait_avail (p : Pipe) (h : p.free ≠ p.size) :
    p.outputWait = (.avail p.free, p) := by
  unfold Pipe.outputWait
  rw [if_pos h]

/-- C6: when a sink accepts fewer bytes than the offered slice without
reporting an error, `pipe.writeTo` aborts at once, returning the
distinguished `io.ErrShortWrite` together with the bytes delivered so
far.  `Copy`'s writer goroutine, by contrast, takes its short-write
branch, assigns `io.ErrShortWrite` to the goroutine-local `err` variable
and returns — leaving the `failure` named return of `Copy` untouched, so
`Copy` reports no error (the evaluation at the failing input: one
buffered byte, a sink that accepts 0 of the 1 offered byte with a nil
error). -/
theorem short_write_handling (p : Pipe) (snk : Nat → Nat → Nat × Option GoErr)
    (fuel idx w adv : Nat) (hinv : PipeInv p) (hdata : p.free ≠ p.size)
    (hsnkerr : (snk idx (min (p.outPos + (p.size - p.free)) p.size - p.outPos)).2
      = none)
    (hshort : (snk idx (min (p.outPos + (p.size - p.free)) p.size - p.outPos)).1
      < min (p.outPos + (p.size - p.free)) p.size - p.outPos) :
    Pipe.writeTo (fuel + 1) p snk idx w adv
      = .done (w + (snk idx
          (min (p.outPos + (p.size - p.free)) p.size - p.outPos)).1)
        (some GoErr.shortWrite) p adv ∧
    copyWriterIter ⟨1, 0, 0, 0, none⟩ false (fun _ => (0, none))
      = .exit ⟨1, 0, 0, 0, none⟩ := by
  constructor
  · unfold Pipe.writeTo
    rw [outputWait_avail p hdata]
    dsimp only
    rw [hsnkerr]
    dsimp only
    rw [if_pos (by omega)]
  · rfl

/-- C6 witness: `Pipe(2)` holding one byte; the sink accepts nothing and
reports no error. -/
theorem short_write_handling_witness :
    Pipe.writeTo 3 (⟨bufWrite (fun _ => 0) 0 [5], 2, 1, 1, 0, false, false,
        none, none⟩ : Pipe) (fun _ _ => (0, none)) 0 0 0
      = .done 0 (some GoErr.shortWrite)
        (⟨bufWrite (fun _ => 0) 0 [5], 2, 1, 1, 0, false, false, none,
          none⟩ : Pipe) 0 ∧
    copyWriterIter ⟨1, 0, 0, 0, none⟩ false (fun _ => (0, none))
      = .exit ⟨1, 0, 0, 0, none⟩ :=
  short_write_handling
    ⟨bufWrite (fun _ => 0) 0 [5], 2, 1, 1, 0, false, false, none, none⟩
    (fun _ _ => (0, none)) 2 0 0 0
    ⟨by decide, by decide, by decide, by decide⟩ (by decide) rfl (by decide)

theorem writeLoop_spec : ∀ (fuel : Nat) (b : List Byte) (p : Pipe) (n : Nat),
    PipeInv p →
    ∀ np p1, WOut (Pipe.writeLoop fuel p b n) = (np, p1) →
    PipeInv p1 ∧ p1.size = p.size ∧ n ≤ np ∧ np - n ≤ p.free ∧
    p1.occ = p.occ + (np - n) := by
  intro fuel
  induction fuel with
  | zero =>
    intro b p n hinv np p1 heq
    unfold Pipe.writeLoop at heq
    by_cases hb : b.isEmpty
    · rw [if_pos hb] at heq
      simp only [WOut, Prod.mk.injEq] at heq
      obtain ⟨rfl, rfl⟩ := heq
      exact ⟨hinv, rfl, Nat.le_refl _, by omega, by omega⟩
    · rw [if_neg hb] at heq
      simp only [WOut, Prod.mk.injEq] at heq
      obtain ⟨rfl, rfl⟩ := heq
      exact ⟨hinv, rfl, Nat.le_refl _, by omega, by omega⟩
  | succ fuel ih =>
    intro b p n hinv np p1 heq
    have hinv0 := hinv
    obtain ⟨hsz, hfr, hin, hout⟩ := hinv0
    unfold Pipe.writeLoop at heq
    by_cases hb : b.isEmpty
    · rw [if_pos hb] at heq
      simp only [WOut, Prod.mk.injEq] at heq
      obtain ⟨rfl, rfl⟩ := heq
      exact ⟨hinv, rfl, Nat.le_refl _, by omega, by omega⟩
    · rw [if_neg hb] at heq
      by_cases hfree0 : p.free ≠ 0
      · rw [inputWait_avail p hfree0] at heq
        dsimp only at heq
        have hnr : min (min (p.inPos + p.free) p.size) (p.inPos + b.length)
            - p.inPos ≤ p.free := by omega
        have hadv := inputAdvance_spec
          { p with buffer := (bufWrite p.buffer p.inPos (b.take (min (min (p.inPos + p.free) p.size) (p.inPos + b.length) - p.inPos))) }
          (min (min (p.inPos + p.free) p.size) (p.inPos + b.length) - p.inPos)
          ⟨hsz, hfr, hin, hout⟩
          (by show min (min (p.inPos + p.free) p.size) (p.inPos + b.length)
                - p.inPos ≤ p.free
              omega)
        obtain ⟨hadvinv, hadvsz, hadvfree, hadvocc, _, _, _, _, _, _⟩ := hadv
        obtain ⟨hp1, hsz1, hle1, hfr1, hocc1⟩ := ih _ _ _ hadvinv _ _ heq
        refine ⟨hp1, by rw [hsz1, hadvsz], by omega, ?_, ?_⟩
        · rw [hadvfree, free_buffer_update] at hfr1
          omega
        · rw [hadvfree, free_buffer_update] at hfr1
          rw [hocc1, hadvocc, occ_buffer_update]
          omega
      · have hfz : p.free = 0 := by omega
        have hiwcases : p.inputWait = .fail (some GoErr.closedPipe) ∨
            p.inputWait = .block := by
          unfold Pipe.inputWait
          rw [if_neg (by omega)]
          by_cases hoq : p.outQuit = true
          · rw [if_pos hoq]
            exact Or.inl rfl
          · rw [if_neg hoq]
            by_cases hiq : p.inQuit = true
            · rw [if_pos hiq]
              exact Or.inl rfl
            · rw [if_neg hiq]
              exact Or.inr rfl
        rcases hiwcases with hiw | hiw
        · rw [hiw] at heq
          simp only [WOut, Prod.mk.injEq] at heq
          obtain ⟨rfl, rfl⟩ := heq
          exact ⟨hinv, rfl, Nat.le_refl _, by omega, by omega⟩
        · rw [hiw] at heq
          simp only [WOut, Prod.mk.injEq] at heq
          obtain ⟨rfl, rfl⟩ := heq
          exact ⟨hinv, rfl, Nat.le_refl _, by omega, by omega⟩

theorem writeTo_spec (snk : Nat → Nat → Nat × Option GoErr) :
    ∀ (fuel : Nat) (p : Pipe) (idx w adv : Nat) (wp : Nat) (p1 : Pipe)
      (advp : Nat),
    PipeInv p →
    WTOut (Pipe.writeTo fuel p snk idx w adv) = (wp, p1, advp) →
    PipeInv p1 ∧ p1.size = p.size ∧ adv ≤ advp ∧ advp - adv ≤ p.occ ∧
    p1.occ + (advp - adv) = p.occ := by
  intro fuel
  induction fuel with
  | zero =>
    intro p idx w adv wp p1 advp hinv heq
    unfold Pipe.writeTo at heq
    simp only [WTOut, Prod.mk.injEq] at heq
    obtain ⟨rfl, rfl, rfl⟩ := heq
    exact ⟨hinv, rfl, Nat.le_refl _, by omega, by omega⟩
  | succ fuel ih =>
    intro p idx w adv wp p1 advp hinv heq
    have hinv0 := hinv
    obtain ⟨hsz, hfr, hin, hout⟩ := hinv0
    unfold Pipe.writeTo at heq
    by_cases hdata : p.free ≠ p.size
    · rw [outputWait_avail p hdata] at heq
      dsimp only at heq
      cases hsnk : (snk idx (min (p.outPos + (p.size - p.free)) p.size
          - p.outPos)).2 with
      | some e =>
        rw [hsnk] at heq
        dsimp only at heq
        simp only [WTOut, Prod.mk.injEq] at heq
        obtain ⟨rfl, rfl, rfl⟩ := heq
        exact ⟨hinv, rfl, Nat.le_refl _, by omega, by omega⟩
      | none =>
        rw [hsnk] at heq
        dsimp only at heq
        by_cases hnw : (snk idx (min (p.outPos + (p.size - p.free)) p.size
            - p.outPos)).1 ≠ min (p.outPos + (p.size - p.free)) p.size - p.outPos
        · rw [if_pos hnw] at heq
          simp only [WTOut, Prod.mk.injEq] at heq
          obtain ⟨rfl, rfl, rfl⟩ := heq
          exact ⟨hinv, rfl, Nat.le_refl _, by omega, by omega⟩
        · rw [if_neg hnw] at heq
          have hnweq : (snk idx (min (p.outPos + (p.size - p.free)) p.size
              - p.outPos)).1 = min (p.outPos + (p.size - p.free)) p.size
              - p.outPos := by omega
          have hadv := outputAdvance_spec p
            (snk idx (min (p.outPos + (p.size - p.free)) p.size - p.outPos)).1
            hinv (by rw [hnweq]; unfold Pipe.occ; omega)
          obtain ⟨hadvinv, hadvsz, hadvfree, hadvocc, _, _, _, _, _, _⟩ := hadv
          obtain ⟨hp1, hsz1, hle1, hd1, hocc1⟩ := ih _ _ _ _ _ _ _ hadvinv heq
          refine ⟨hp1, by rw [hsz1, hadvsz], by omega, by omega, ?_⟩
          omega
    · have hfz : p.free = p.size := by omega
      by_cases hiq : p.inQuit = true
      · have hw : p.outputWait = (.fail p.inErr, p.outputClose none) := by
          unfold Pipe.outputWait
          rw [if_neg (by simp [hfz]), if_pos hiq]
        rw [hw] at heq
        dsimp only at heq
        by_cases herr : p.inErr = some GoErr.eof
        · rw [if_pos herr] at heq
          simp only [WTOut, Prod.mk.injEq] at heq
          obtain ⟨rfl, rfl, rfl⟩ := heq
          exact ⟨hinv, rfl, Nat.le_refl _, by omega,
            by rw [occ_outputClose]; omega⟩
        · rw [if_neg herr] at heq
          simp only [WTOut, Prod.mk.injEq] at heq
          obtain ⟨rfl, rfl, rfl⟩ := heq
          exact ⟨hinv, rfl, Nat.le_refl _, by omega,
            by rw [occ_outputClose]; omega⟩
      · by_cases hoq : p.outQuit = true
        · have hw : p.outputWait = (.fail (some GoErr.closedPipe), p) := by
            unfold Pipe.outputWait
            rw [if_neg (by simp [hfz]), if_neg hiq, if_pos hoq]
          rw [hw] at heq
          dsimp only at heq
          rw [if_neg (by simp)] at heq
          simp only [WTOut, Prod.mk.injEq] at heq
          obtain ⟨rfl, rfl, rfl⟩ := heq
          exact ⟨hinv, rfl, Nat.le_refl _, by omega, by omega⟩
        · have hw : p.outputWait = (.block, p) := by
            unfold Pipe.outputWait
            rw [if_neg (by simp [hfz]), if_neg hiq, if_neg hoq]
          rw [hw] at heq
          dsimp only at heq
          simp only [WTOut, Prod.mk.injEq] at heq
          obtain ⟨rfl, rfl, rfl⟩ := heq
          exact ⟨hinv, rfl, Nat.le_refl _, by omega, by omega⟩

theorem inputClose_fields (p : Pipe) (e : Option GoErr) :
    ∀ p1, (p.inputClose e = .done p1 ∨ p.inputClose e = .blocked p1) →
      p1.size = p.size ∧ p1.free = p.free ∧ p1.inPos = p.inPos ∧
      p1.outPos = p.outPos ∧ p1.occ = p.occ := by
  intro p1 h
  unfold Pipe.inputClose at h
  by_cases hiq : p.inQuit = true
  · rw [if_pos hiq] at h
    rcases h with h | h <;> simp at h
  · rw [if_neg hiq] at h
    dsimp only at h
    by_cases hfr : p.free ≠ p.size
    · rw [if_pos hfr] at h
      by_cases hoq : p.outQuit = true
      · rw [if_pos hoq] at h
        rcases h with h | h
        · injection h with h2
          subst h2
          exact ⟨rfl, rfl, rfl, rfl, rfl⟩
        · simp at h
      · rw [if_neg hoq] at h
        rcases h with h | h
        · simp at h
        · injection h with h2
          subst h2
          exact ⟨rfl, rfl, rfl, rfl, rfl⟩
    · rw [if_neg hfr] at h
      rcases h with h | h
      · injection h with h2
        subst h2
        exact ⟨rfl, rfl, rfl, rfl, rfl⟩
      · simp at h

theorem applyOp_spec (p : Pipe) (op : POp) (hinv : PipeInv p)
    (hwb : POpWB op) :
    PipeInv (applyOp p op).1 ∧ (applyOp p op).1.size = p.size ∧
    (applyOp p op).2.1 ≤ p.free ∧
    (applyOp p op).2.2 ≤ p.occ + (applyOp p op).2.1 ∧
    (applyOp p op).1.occ + (applyOp p op).2.2 = p.occ + (applyOp p op).2.1 := by
  cases op with
  | opRead blen =>
    unfold applyOp
    dsimp only
    by_cases hq : p.outQuit = true
    · rw [read_closed_spec p blen hq]
      dsimp only
      exact ⟨hinv, rfl, by omega, by omega, by omega⟩
    · have hq2 : p.outQuit = false := by simpa using hq
      by_cases hfree : p.free = p.size
      · by_cases hiq : p.inQuit = true
        · rw [read_eof_spec p blen hq2 hfree hiq]
          dsimp only
          exact ⟨hinv, rfl, by omega, by omega,
            by have hx := occ_outputClose p none; omega⟩
        · rw [read_block_spec p blen hq2 hfree (by simpa using hiq)]
          dsimp only
          exact ⟨hinv, rfl, by omega, by omega, by omega⟩
      · obtain ⟨n, p1, heq, hn, hinv1, hsz1, _, _, hocc1, _, _, _, _, _⟩ :=
          read_ok_spec p blen hinv hq2 hfree
        rw [heq]
        dsimp only
        exact ⟨hinv1, hsz1, by omega, by omega, by omega⟩
  | opWrite fuel b =>
    unfold applyOp
    dsimp only
    by_cases hiq : p.inQuit = true
    · rw [show Pipe.write fuel p b = WriteRes.fail 0 (some GoErr.closedPipe) p
        from by unfold Pipe.write; rw [if_pos hiq]]
      dsimp only
      exact ⟨hinv, rfl, by omega, by omega, by omega⟩
    · rw [show Pipe.write fuel p b = Pipe.writeLoop fuel p b 0
        from by unfold Pipe.write; rw [if_neg hiq]]
      cases hwl : Pipe.writeLoop fuel p b 0 with
      | done n p1 =>
        obtain ⟨hp1, hsz1, _, hfr1, hocc1⟩ :=
          writeLoop_spec fuel b p 0 hinv n p1 (by rw [hwl]; rfl)
        dsimp only
        exact ⟨hp1, hsz1, by omega, by omega, by omega⟩
      | fail n e p1 =>
        obtain ⟨hp1, hsz1, _, hfr1, hocc1⟩ :=
          writeLoop_spec fuel b p 0 hinv n p1 (by rw [hwl]; rfl)
        dsimp only
        exact ⟨hp1, hsz1, by omega, by omega, by omega⟩
      | block n p1 =>
        obtain ⟨hp1, hsz1, _, hfr1, hocc1⟩ :=
          writeLoop_spec fuel b p 0 hinv n p1 (by rw [hwl]; rfl)
        dsimp only
        exact ⟨hp1, hsz1, by omega, by omega, by omega⟩
      | fuelOut n p1 =>
        obtain ⟨hp1, hsz1, _, hfr1, hocc1⟩ :=
          writeLoop_spec fuel b p 0 hinv n p1 (by rw [hwl]; rfl)
        dsimp only
        exact ⟨hp1, hsz1, by omega, by omega, by omega⟩
  | opReadFrom fuel src =>
    unfold applyOp
    dsimp only
    have hwb2 : ∀ i k, (src i k).1.length ≤ k := hwb
    cases hrf : Pipe.readFrom fuel p src 0 0 [] with
    | done r e p1 tr =>
      obtain ⟨hp1, hsz1, _, hfr1, hocc1, _⟩ :=
        readFrom_spec src hwb2 fuel p 0 0 [] r p1 tr hinv (by rw [hrf]; rfl)
      dsimp only
      exact ⟨hp1, hsz1, by omega, by omega, by omega⟩
    | block r p1 tr =>
      obtain ⟨hp1, hsz1, _, hfr1, hocc1, _⟩ :=
        readFrom_spec src hwb2 fuel p 0 0 [] r p1 tr hinv (by rw [hrf]; rfl)
      dsimp only
      exact ⟨hp1, hsz1, by omega, by omega, by omega⟩
    | fuelOut r p1 tr =>
      obtain ⟨hp1, hsz1, _, hfr1, hocc1, _⟩ :=
        readFrom_spec src hwb2 fuel p 0 0 [] r p1 tr hinv (by rw [hrf]; rfl)
      dsimp only
      exact ⟨hp1, hsz1, by omega, by omega, by omega⟩
  | opWriteTo fuel snk =>
    unfold applyOp
    dsimp only
    cases hwt : Pipe.writeTo fuel p snk 0 0 0 with
    | done w e p1 adv =>
      obtain ⟨hp1, hsz1, _, hd1, hocc1⟩ :=
        writeTo_spec snk fuel p 0 0 0 w p1 adv hinv (by rw [hwt]; rfl)
      dsimp only
      exact ⟨hp1, hsz1, by omega, by omega, by omega⟩
    | block w p1 adv =>
      obtain ⟨hp1, hsz1, _, hd1, hocc1⟩ :=
        writeTo_spec snk fuel p 0 0 0 w p1 adv hinv (by rw [hwt]; rfl)
      dsimp only
      exact ⟨hp1, hsz1, by omega, by omega, by omega⟩
    | fuelOut w p1 adv =>
      obtain ⟨hp1, hsz1, _, hd1, hocc1⟩ :=
        writeTo_spec snk fuel p 0 0 0 w p1 adv hinv (by rw [hwt]; rfl)
      dsimp only
      exact ⟨hp1, hsz1, by omega, by omega, by omega⟩
  | opCloseReader e =>
    unfold applyOp
    dsimp only
    exact ⟨hinv, rfl, by omega, by omega,
      by have hx := occ_outputClose p e; omega⟩
  | opCloseWriter e =>
    unfold applyOp
    dsimp only
    cases hic : p.inputClose e with
    | done p1 =>
      dsimp only
      obtain ⟨hsz1, hfr1, hip1, hop1, hocc1⟩ :=
        inputClose_fields p e p1 (Or.inl hic)
      obtain ⟨hsz, hfr, hin, hout⟩ := hinv
      exact ⟨⟨by omega, by omega, by omega, by omega⟩, hsz1, by omega,
        by omega, by omega⟩
    | blocked p1 =>
      dsimp only
      obtain ⟨hsz1, hfr1, hip1, hop1, hocc1⟩ :=
        inputClose_fields p e p1 (Or.inr hic)
      obtain ⟨hsz, hfr, hin, hout⟩ := hinv
      exact ⟨⟨by omega, by omega, by omega, by omega⟩, hsz1, by omega,
        by omega, by omega⟩
    | panicked =>
      dsimp only
      exact ⟨hinv, rfl, by omega, by omega, by omega⟩

theorem runOps_spec : ∀ (ops : List POp) (p : Pipe), PipeInv p →
    (∀ op ∈ ops, POpWB op) →
    PipeInv (runOps p ops).1 ∧ (runOps p ops).1.size = p.size ∧
    (runOps p ops).2.2 ≤ p.occ + (runOps p ops).2.1 ∧
    (runOps p ops).1.occ + (runOps p ops).2.2 = p.occ + (runOps p ops).2.1 := by
  intro ops
  induction ops with
  | nil =>
    intro p hinv hwb
    exact ⟨hinv, rfl, by simp [runOps, Pipe.occ], by simp [runOps]⟩
  | cons op rest ih =>
    intro p hinv hwb
    have hop := applyOp_spec p op hinv (hwb op (by simp))
    have hrest := ih (applyOp p op).1 hop.1
      (fun o ho => hwb o (by simp [ho]))
    unfold runOps
    dsimp only
    obtain ⟨h1, h2, h3, h4, h5⟩ := hop
    obtain ⟨g1, g2, g3, g4⟩ := hrest
    refine ⟨g1, by rw [g2, h2], by omega, by omega⟩

/-- C9: starting from `Pipe(capacity)` with `capacity ≥ 1`, after any
sequence of pipe operations under the single-producer / single-consumer
discipline, the state satisfies `0 ≤ free ≤ capacity` and
`in_pos, out_pos ∈ [0, capacity)`, and `capacity - free` equals the total
bytes committed into the ring minus the total bytes consumed from it. -/
theorem pipe_state_invariant (cap : Nat) (ops : List POp) (hcap : 0 < cap)
    (hwb : ∀ op ∈ ops, POpWB op) :
    PipeInv (runOps (Pipe.init cap) ops).1 ∧
    (runOps (Pipe.init cap) ops).1.size = cap ∧
    (runOps (Pipe.init cap) ops).1.free ≤ cap ∧
    (runOps (Pipe.init cap) ops).1.inPos < cap ∧
    (runOps (Pipe.init cap) ops).1.outPos < cap ∧
    (runOps (Pipe.init cap) ops).2.2 ≤ (runOps (Pipe.init cap) ops).2.1 ∧
    cap - (runOps (Pipe.init cap) ops).1.free
      = (runOps (Pipe.init cap) ops).2.1
        - (runOps (Pipe.init cap) ops).2.2 := by
  have hinv0 : PipeInv (Pipe.init cap) :=
    ⟨hcap, Nat.le_refl _, hcap, hcap⟩
  obtain ⟨h1, h2, h3, h4⟩ := runOps_spec ops (Pipe.init cap) hinv0 hwb
  have hocc0 : (Pipe.init cap).occ = 0 := by
    simp [Pipe.init, Pipe.occ]
  obtain ⟨i1, i2, i3, i4⟩ := h1
  rw [hocc0] at h3 h4
  have hszinit : (Pipe.init cap).size = cap := rfl
  rw [hszinit] at h2
  refine ⟨⟨i1, i2, i3, i4⟩, h2, by omega, by omega, by omega, by omega, ?_⟩
  have : (runOps (Pipe.init cap) ops).1.occ
      = (runOps (Pipe.init cap) ops).1.size
        - (runOps (Pipe.init cap) ops).1.free := rfl
  omega

/-- C9 witness: `Pipe(2)` after a two-byte write, a read, and both
closes. -/
theorem pipe_state_invariant_witness :
    (0 < 2 ∧ ∀ op ∈ [POp.opWrite 3 [3, 4], POp.opRead 1,
      POp.opCloseWriter none, POp.opCloseReader none], POpWB op) ∧
    (PipeInv (runOps (Pipe.init 2) [POp.opWrite 3 [3, 4], POp.opRead 1,
        POp.opCloseWriter none, POp.opCloseReader none]).1 ∧
     (runOps (Pipe.init 2) [POp.opWrite 3 [3, 4], POp.opRead 1,
        POp.opCloseWriter none, POp.opCloseReader none]).1.size = 2 ∧
     (runOps (Pipe.init 2) [POp.opWrite 3 [3, 4], POp.opRead 1,
        POp.opCloseWriter none, POp.opCloseReader none]).1.free ≤ 2 ∧
     (runOps (Pipe.init 2) [POp.opWrite 3 [3, 4], POp.opRead 1,
        POp.opCloseWriter none, POp.opCloseReader none]).1.inPos < 2 ∧
     (runOps (Pipe.init 2) [POp.opWrite 3 [3, 4], POp.opRead 1,
        POp.opCloseWriter none, POp.opCloseReader none]).1.outPos < 2 ∧
     (runOps (Pipe.init 2) [POp.opWrite 3 [3, 4], POp.opRead 1,
        POp.opCloseWriter none, POp.opCloseReader none]).2.2
       ≤ (runOps (Pipe.init 2) [POp.opWrite 3 [3, 4], POp.opRead 1,
        POp.opCloseWriter none, POp.opCloseReader none]).2.1 ∧
     2 - (runOps (Pipe.init 2) [POp.opWrite 3 [3, 4], POp.opRead 1,
        POp.opCloseWriter none, POp.opCloseReader none]).1.free
       = (runOps (Pipe.init 2) [POp.opWrite 3 [3, 4], POp.opRead 1,
        POp.opCloseWriter none, POp.opCloseReader none]).2.1
        - (runOps (Pipe.init 2) [POp.opWrite 3 [3, 4], POp.opRead 1,
        POp.opCloseWriter none, POp.opCloseReader none]).2.2) := by
  have hwb : ∀ op ∈ [POp.opWrite 3 [3, 4], POp.opRead 1,
      POp.opCloseWriter none, POp.opCloseReader none], POpWB op := by
    intro op h
    rw [List.mem_cons] at h
    rcases h with rfl | h
    · trivial
    rw [List.mem_cons] at h
    rcases h with rfl | h
    · trivial
    rw [List.mem_cons] at h
    rcases h with rfl | h
    · trivial
    rw [List.mem_cons] at h
    rcases h with rfl | h
    · trivial
    simp at h
  exact ⟨⟨by decide, hwb⟩, pipe_state_invariant 2 _ (by decide) hwb⟩

/-! ### The `Copy` simulation (C1) -/

theorem wrapIdx_id {size pos : Nat} (h : pos < size) :
    wrapIdx size pos = pos := by
  unfold wrapIdx
  rw [if_neg (by omega)]

theorem prodStep_spec (orig : List Byte) (s : CopyState) (chunk : Nat)
    (hinv : CInv orig s) (hiq : s.inQuit = false) (hfree0 : s.free ≠ 0) :
    CInv orig (prodStep s chunk) ∧
    copyMeasure (prodStep s chunk) < copyMeasure s := by
  obtain ⟨hsz, hfr, hin, hout, hlink, hcontent, hwr, hq⟩ := hinv
  have hE1 : 1 ≤ (if s.inPos + s.free ≤ s.size then s.free
      else s.size - s.inPos) := by
    split_ifs <;> omega
  have hEfree : (if s.inPos + s.free ≤ s.size then s.free
      else s.size - s.inPos) ≤ s.free := by
    split_ifs <;> omega
  have hEend : (if s.inPos + s.free ≤ s.size then s.free
      else s.size - s.inPos) ≤ s.size - s.inPos := by
    split_ifs <;> omega
  have hfalse1 : (if (false : Bool) = true then (0 : Nat) else 1) = 1 := rfl
  have htrue0 : (if (true : Bool) = true then (0 : Nat) else 1) = 0 := rfl
  by_cases hsrc0 : s.src = []
  · unfold prodStep copyMeasure CInv
    rw [hsrc0]
    dsimp only
    simp only [List.length_nil, Nat.min_zero, List.take_nil, List.drop_nil,
      bufWrite_nil]
    have h00 : (if True then (0 : Nat) else 1 + chunk % 0) = 0 := rfl
    rw [h00, hiq, hfalse1]
    have hd0 : decide ((0 : Nat) = 0) = true := rfl
    rw [hd0, htrue0]
    simp only [Nat.add_zero, Nat.sub_zero]
    rw [wrapIdx_id hin]
    rw [hsrc0] at hcontent
    refine ⟨⟨hsz, hfr, hin, hout, hlink, hcontent, hwr, fun _ => trivial⟩, ?_⟩
    omega
  · have hL1 : 1 ≤ s.src.length := by
      cases hsl : s.src with
      | nil => exact absurd hsl hsrc0
      | cons a l => simp
    have hmost1 : 1 ≤ min (if s.inPos + s.free ≤ s.size then s.free
        else s.size - s.inPos) s.src.length := by omega
    unfold prodStep copyMeasure CInv
    dsimp only
    rw [if_neg (by omega)]
    have hmodlt : chunk % (min (if s.inPos + s.free ≤ s.size then s.free
        else s.size - s.inPos) s.src.length)
        < min (if s.inPos + s.free ≤ s.size then s.free
        else s.size - s.inPos) s.src.length := Nat.mod_lt _ (by omega)
    set nr := 1 + chunk % (min (if s.inPos + s.free ≤ s.size then s.free
        else s.size - s.inPos) s.src.length) with hnrdef
    have hnr1 : 1 ≤ nr := by omega
    have hnrle : nr ≤ min (if s.inPos + s.free ≤ s.size then s.free
        else s.size - s.inPos) s.src.length := by omega
    have hnrfree : nr ≤ s.free := by omega
    have hnrL : nr ≤ s.src.length := by omega
    have hnrend : s.inPos + nr ≤ s.size := by omega
    have htlen : (s.src.take nr).length = nr := by
      rw [List.length_take]
      omega
    have happ := ringSeg_bufWrite_append s.buf s.size s.outPos
      (s.size - s.free) (s.src.take nr) hsz hout
      (by rw [htlen]; omega) (by rw [htlen, ← hlink]; omega)
    rw [htlen, ← hlink] at happ
    refine ⟨⟨hsz, by omega, ?_, hout, ?_, ?_, hwr, ?_⟩, ?_⟩
    · show wrapIdx s.size (s.inPos + nr) < s.size
      exact wrapIdx_lt hsz (by omega)
    · show wrapIdx s.size (s.inPos + nr)
        = (s.outPos + (s.size - (s.free - nr))) % s.size
      rw [wrapIdx_eq_mod hsz (by omega), hlink, Nat.mod_add_mod]
      congr 1
      omega
    · show s.dst ++ ringSeg (bufWrite s.buf s.inPos (s.src.take nr)) s.size
          s.outPos (s.size - (s.free - nr)) ++ s.src.drop nr = orig
      have hocceq : s.size - (s.free - nr) = s.size - s.free + nr := by omega
      rw [hocceq, happ]
      calc s.dst ++ (ringSeg s.buf s.size s.outPos (s.size - s.free)
            ++ s.src.take nr) ++ s.src.drop nr
          = s.dst ++ ringSeg s.buf s.size s.outPos (s.size - s.free)
            ++ (s.src.take nr ++ s.src.drop nr) := by
            simp [List.append_assoc]
        _ = orig := by
            rw [List.take_append_drop]
            exact hcontent
    · intro hdec
      show s.src.drop nr = []
      have heq2 : nr = s.src.length := of_decide_eq_true hdec
      rw [heq2, List.drop_length]
    · rw [hiq, hfalse1]
      simp only [List.length_drop]
      by_cases heof : nr = s.src.length
      · rw [decide_eq_true heof, htrue0]
        omega
      · rw [decide_eq_false heof, hfalse1]
        omega

theorem consStep_spec (orig : List Byte) (s : CopyState)
    (hinv : CInv orig s) (hfree : s.free ≠ s.size) :
    CInv orig (consStep s) ∧ copyMeasure (consStep s) < copyMeasure s ∧
    (consStep s).inQuit = s.inQuit ∧ (consStep s).src = s.src := by
  obtain ⟨hsz, hfr, hin, hout, hlink, hcontent, hwr, hq⟩ := hinv
  have hE1 : 1 ≤ (if s.outPos ≤ s.free then s.size - s.free
      else s.size - s.outPos) := by
    split_ifs <;> omega
  have hEocc : (if s.outPos ≤ s.free then s.size - s.free
      else s.size - s.outPos) ≤ s.size - s.free := by
    split_ifs <;> omega
  have hEend : s.outPos + (if s.outPos ≤ s.free then s.size - s.free
      else s.size - s.outPos) ≤ s.size := by
    split_ifs <;> omega
  have hd := ringSeg_take_contig s.buf s.size s.outPos (s.size - s.free)
    (if s.outPos ≤ s.free then s.size - s.free else s.size - s.outPos)
    hEocc hEend
  have hdrop := ringSeg_advance_drop s.buf s.size s.outPos (s.size - s.free)
    (if s.outPos ≤ s.free then s.size - s.free else s.size - s.outPos)
    hsz hEocc hEend
  unfold consStep copyMeasure CInv
  dsimp only
  have hocceq : s.size - (s.free + (if s.outPos ≤ s.free then s.size - s.free
      else s.size - s.outPos)) = (s.size - s.free)
      - (if s.outPos ≤ s.free then s.size - s.free else s.size - s.outPos) := by
    omega
  refine ⟨⟨hsz, by omega, hin, ?_, ?_, ?_, ?_, ?_⟩, ?_, rfl, rfl⟩
  · show wrapIdx s.size (s.outPos + _) < s.size
    exact wrapIdx_lt hsz (by omega)
  · show s.inPos = (wrapIdx s.size (s.outPos + _) + (s.size - (s.free + _)))
        % s.size
    rw [hocceq, wrapIdx_eq_mod hsz (by omega), Nat.mod_add_mod, hlink]
    congr 1
    omega
  · show s.dst ++ _ ++ ringSeg s.buf s.size (wrapIdx s.size (s.outPos + _))
        (s.size - (s.free + _)) ++ s.src = orig
    rw [hocceq, hdrop, hd]
    calc s.dst ++ (ringSeg s.buf s.size s.outPos (s.size - s.free)).take
          (if s.outPos ≤ s.free then s.size - s.free else s.size - s.outPos)
          ++ (ringSeg s.buf s.size s.outPos (s.size - s.free)).drop
          (if s.outPos ≤ s.free then s.size - s.free else s.size - s.outPos)
          ++ s.src
        = s.dst ++ ((ringSeg s.buf s.size s.outPos (s.size - s.free)).take
          (if s.outPos ≤ s.free then s.size - s.free else s.size - s.outPos)
          ++ (ringSeg s.buf s.size s.outPos (s.size - s.free)).drop
          (if s.outPos ≤ s.free then s.size - s.free else s.size - s.outPos))
          ++ s.src := by
          simp [List.append_assoc]
      _ = orig := by
          rw [List.take_append_drop]
          exact hcontent
  · show s.written + _ = (s.dst ++ _).length
    rw [List.length_append, List.length_map, List.length_range]
    omega
  · show s.inQuit = true → s.src = []
    exact hq
  · omega

theorem copyRun_spec (orig : List Byte) (sched : Nat → Bool)
    (oracle : Nat → Nat) :
    ∀ (fuel : Nat) (s : CopyState) (k : Nat),
    CInv orig s → copyMeasure s ≤ fuel →
    ∃ sf, copyRun fuel sched oracle k s = some sf ∧ CInv orig sf ∧
      sf.inQuit = true ∧ sf.free = sf.size := by
  intro fuel
  induction fuel with
  | zero =>
    intro s k hinv hmeas
    by_cases hdone : s.inQuit = true ∧ s.free = s.size
    · refine ⟨s, ?_, hinv, hdone.1, hdone.2⟩
      unfold copyRun
      rw [if_pos hdone]
    · exfalso
      obtain ⟨hsz, hfr, _, _, _, _, _, hq⟩ := hinv
      unfold copyMeasure at hmeas
      by_cases hiq : s.inQuit = true
      · have hfe : s.free ≠ s.size := fun h => hdone ⟨hiq, h⟩
        omega
      · rw [if_neg hiq] at hmeas
        omega
  | succ fuel ih =>
    intro s k hinv hmeas
    by_cases hdone : s.inQuit = true ∧ s.free = s.size
    · refine ⟨s, ?_, hinv, hdone.1, hdone.2⟩
      unfold copyRun
      rw [if_pos hdone]
    · unfold copyRun
      rw [if_neg hdone]
      dsimp only
      by_cases hprod : (s.inQuit = false ∧ s.free ≠ 0)
          ∧ (sched k = true ∨ s.free = s.size)
      · rw [if_pos hprod]
        obtain ⟨hinv2, hdec⟩ :=
          prodStep_spec orig s (oracle k) hinv hprod.1.1 hprod.1.2
        exact ih (prodStep s (oracle k)) (k + 1) hinv2 (by omega)
      · rw [if_neg hprod]
        have hfree : s.free ≠ s.size := by
          intro hfe
          have hiq : s.inQuit = false := by
            by_cases h : s.inQuit = true
            · exact absurd ⟨h, hfe⟩ hdone
            · simpa using h
          exact hprod ⟨⟨hiq, by have := hinv.1; omega⟩, Or.inr hfe⟩
        obtain ⟨hinv2, hdec, _, _⟩ := consStep_spec orig s hinv hfree
        exact ih (consStep s) (k + 1) hinv2 (by omega)

/-- C1: for every capacity ≥ 1, every finite source content, and every
interleaving of the two goroutines of `Copy` (with the source's chunking
chosen adversarially by an oracle), `Copy(sink, source, capacity)` against
a faultless source and sink terminates, returns a byte count equal to the
source length with no error, and delivers to the sink exactly the byte
sequence read from the source. -/
theorem copy_conservation (sched : Nat → Bool) (oracle : Nat → Nat)
    (srcBytes : List Byte) (buffer : Nat) (hcap : 0 < buffer) :
    CopyModel sched oracle srcBytes buffer
      = some (srcBytes.length, srcBytes, none) := by
  have hinv0 : CInv srcBytes
      ⟨fun _ => 0, buffer, buffer, 0, 0, srcBytes, [], 0, false⟩ := by
    refine ⟨hcap, Nat.le_refl _, hcap, hcap, ?_, ?_, rfl, ?_⟩
    · show (0 : Nat) = (0 + (buffer - buffer)) % buffer
      rw [Nat.sub_self]
      simp
    · show [] ++ ringSeg (fun _ => 0) buffer 0 (buffer - buffer)
          ++ srcBytes = srcBytes
      rw [Nat.sub_self, ringSeg_zero]
      simp
    · intro h
      simp at h
  obtain ⟨sf, hrun, hinvf, hiqf, hfreef⟩ := copyRun_spec srcBytes sched
    oracle (2 * srcBytes.length + 1)
    ⟨fun _ => 0, buffer, buffer, 0, 0, srcBytes, [], 0, false⟩ 0 hinv0
    (by unfold copyMeasure; dsimp only; rw [Nat.sub_self]; simp)
  unfold CopyModel
  dsimp only
  rw [hrun]
  obtain ⟨_, _, _, _, _, hcontent, hwr, hq⟩ := hinvf
  have hsrcf : sf.src = [] := hq hiqf
  have hoccf : sf.size - sf.free = 0 := by omega
  rw [hsrcf, hoccf, ringSeg_zero, List.append_nil, List.append_nil] at hcontent
  rw [hcontent] at hwr
  dsimp only
  rw [hwr, hcontent]

/-- C1 witness: three bytes through a two-byte ring under a
producer-first schedule with greedy chunks. -/
theorem copy_conservation_witness :
    0 < 2 ∧ CopyModel (fun _ => true) (fun _ => 0) [1, 2, 3] 2
      = some (3, [1, 2, 3], none) :=
  ⟨by decide, copy_conservation (fun _ => true) (fun _ => 0) [1, 2, 3] 2
    (by decide)⟩

end Bufioprop
